import Mathlib

/-!
Shallow embedding of the Go board-tracking core of `game.py` (class `Game`):
the chain/board state, `_validate_move_and_update_chains`, `play`, `undo`,
`redo`, `switch_branch`, `place_handicap_stones` and `prisoner_count`,
together with proofs about capture, ko, suicide, the board/chain occupancy
invariant, and tree navigation.

Modelling conventions:
* Python lists become Lean `List`s; `l[i]` with a possibly negative index is
  `pyGetD` (Python's negative-index wrap; out-of-range reads return a default
  and out-of-range writes are dropped — both are unreachable in every run a
  theorem below talks about, since `play` bounds-checks coordinates and
  replay only re-applies committed moves).
* Python `set` iteration order is observable in the source (`list({...})[0]`
  picks the merge representative, and capture processing iterates a set), so
  sets of small ints are modelled by `pySetList`, a faithful model of
  CPython's set hash table for at most four inserted elements of value ≥ -1
  (8 slots, `hash(n) = n` for `n ≥ 0`, `hash(-1) = -2`, perturb probing,
  iteration in slot order).  All the sets whose order the code observes have
  at most four elements, so the table never resizes.
* Raising `IllegalMoveException` is modelled by returning the mutated state
  together with `some` error: in Python the mutations performed before the
  `raise` stay committed on the object.
-/

/-- Stone colour.  Modelled from the spec: a `Move`'s player is one of two
colours. -/
inductive Player where
  | B : Player
  | W : Player
deriving DecidableEq, Repr

/-- Modelled from the spec: the external `sgf_parser.Move` value consumed by
`game.py` — a player plus either a board coordinate pair or a pass marker
(`coords = none`); equality is by player and coordinate. -/
structure Move where
  player : Player
  coords : Option (Int × Int)
deriving DecidableEq, Repr

/-- Python `move.is_pass`. -/
def Move.is_pass (m : Move) : Bool := m.coords.isNone

/-- Default `Move` used only to totalise head/index accesses that are
unreachable in the runs the theorems describe. -/
def mdefault : Move := { player := Player.B, coords := none }

/-- Python list read `l[i]`: negative indices wrap from the end; an
out-of-range read (an `IndexError` in Python, unreachable in the traced
runs) returns the default. -/
def pyGetD {α : Type} (l : List α) (i : Int) (d : α) : α :=
  let j := if i < 0 then i + l.length else i
  if 0 ≤ j then l.getD j.toNat d else d

/-- Python list write `l[i] = v`: negative indices wrap; an out-of-range
write (unreachable in the traced runs) is dropped. -/
def pyListSet {α : Type} (l : List α) (i : Int) (v : α) : List α :=
  let j := if i < 0 then i + l.length else i
  if 0 ≤ j then l.set j.toNat v else l

/-- Board cell read `self.board[y][x]` (row-major, `-1` = empty). -/
def cellGet (board : List (List Int)) (y x : Int) : Int :=
  pyGetD (pyGetD board y []) x (-1)

/-- Board cell write `self.board[y][x] = v`. -/
def cellSet (board : List (List Int)) (y x : Int) (v : Int) : List (List Int) :=
  pyListSet board y (pyListSet (pyGetD board y []) x v)

/-- CPython `hash` on the ints that can appear on the board: `hash(n) = n`
for `n ≥ 0` and `hash(-1) = -2`. -/
def pyHash (x : Int) : Int := if x = -1 then -2 else x

/-- The (fuel-bounded) CPython probe sequence for a set of size 8:
start at `hash & 7`, then repeatedly `perturb >>= 5; i = (i*5 + 1 + perturb) & 7`. -/
def probePath : Nat → Nat → Nat → List Nat
  | 0, i, _ => [i]
  | fuel + 1, i, perturb =>
    let p := perturb / 32
    i :: probePath fuel ((i * 5 + 1 + p) % 8) p

/-- Walk the probe sequence: stop at the first empty slot (insert there) or
at a slot already holding the value (no-op). -/
def insertWalk (t : List (Option Int)) (x : Int) : List Nat → List (Option Int)
  | [] => t
  | s :: rest =>
    match t.getD s none with
    | none => t.set s (some x)
    | some y => if y = x then t else insertWalk t x rest

/-- CPython `set.add` for an 8-slot table (no resize happens for the at most
four distinct elements inserted by the code below). -/
def pySetInsert (t : List (Option Int)) (x : Int) : List (Option Int) :=
  let h := ((pyHash x) % ((2 : Int) ^ 64)).toNat
  insertWalk t x (probePath 64 (h % 8) h)

/-- The list a CPython `set` of the given ints iterates as (slot order),
which is what `list({...})` and `for c in {...}` observe in the source. -/
def pySetList (xs : List Int) : List Int :=
  (xs.foldl pySetInsert (List.replicate 8 none)).filterMap id

/-- Errors raised as `IllegalMoveException` (with the message distinguishing
the reason) by `game.py`. -/
inductive IllegalMove where
  | occupied
  | ko
  | suicide
  | out_of_bounds
deriving DecidableEq, Repr

/-- Committed board/chain state of a `Game` object: the fields mutated by
`_validate_move_and_update_chains`. -/
structure ChainState where
  board_size : Nat
  board : List (List Int)
  chains : List (List Move)
  prisoners : List Move
  last_capture : List Move
deriving DecidableEq, Repr

/-- The generator feeding the `neighbours(moves)` set comprehension: board
values of in-bounds orthogonal neighbours, in generator order
(`dy, dx ∈ [(-1,0),(1,0),(0,-1),(0,1)]`).  Set membership tests on
`neighbours(...)` coincide with membership in this list. -/
def neighbourValues (n : Nat) (board : List (List Int)) (moves : List Move) : List Int :=
  moves.flatMap fun m =>
    match m.coords with
    | none => []
    | some (x, y) =>
      [((-1 : Int), (0 : Int)), (1, 0), (0, -1), (0, 1)].filterMap fun dydx =>
        let dy := dydx.1
        let dx := dydx.2
        if 0 ≤ x + dx ∧ x + dx < (n : Int) ∧ 0 ≤ y + dy ∧ y + dy < (n : Int) then
          some (cellGet board (y + dy) (x + dx))
        else none

/-- Python `self.chains[c][0].player` (the colour of chain `c`), totalised
with the default move for the unreachable empty/out-of-range case. -/
def chainHeadPlayer (chains : List (List Move)) (c : Int) : Player :=
  ((pyGetD chains c []).headD mdefault).player

/-- Line 86: `nb_chains = list({c for c in neighbours([move]) if c >= 0 and
self.chains[c][0].player == move.player})` — the set is built by iterating
the `neighbours([move])` set and filtering, and is then listed in its own
iteration order. -/
def nbChainsOf (n : Nat) (board : List (List Int)) (chains : List (List Move))
    (move : Move) : List Int :=
  pySetList ((pySetList (neighbourValues n board [move])).filter
    (fun c => decide (0 ≤ c) && (chainHeadPlayer chains c == move.player)))

/-- Line 99: `opp_nb_chains = {c for c in neighbours([move]) if c >= 0 and
self.chains[c][0].player != move.player}`, listed in set iteration order
(the order the capture loop visits it in). -/
def oppChainsOf (n : Nat) (board : List (List Int)) (chains : List (List Move))
    (move : Move) : List Int :=
  pySetList ((pySetList (neighbourValues n board [move])).filter
    (fun c => decide (0 ≤ c) && !(chainHeadPlayer chains c == move.player)))

/-- Result of the placement/merge step (lines 86–97). -/
structure MergeRes where
  board : List (List Int)
  chains : List (List Move)
  this_chain : Int
deriving DecidableEq, Repr

/-- Lines 86–97: merge the friendly neighbour chains into `nb_chains[0]`
(or allocate a fresh chain), then assign the played cell. -/
def applyPlacement (n : Nat) (board : List (List Int)) (chains : List (List Move))
    (move : Move) (x y : Int) : MergeRes :=
  match nbChainsOf n board chains move with
  | [] =>
    let tc : Int := chains.length
    { board := cellSet board y x tc
      chains := chains ++ [[move]]
      this_chain := tc }
  | c0 :: rest =>
    let nb := c0 :: rest
    let board := board.map fun line => line.map fun sq => if sq ∈ nb then c0 else sq
    let chains := rest.foldl
      (fun chs oc => pyListSet (pyListSet chs c0 (pyGetD chs c0 [] ++ pyGetD chs oc [])) oc [])
      chains
    let chains := pyListSet chains c0 (pyGetD chains c0 [] ++ [move])
    { board := cellSet board y x c0
      chains := chains
      this_chain := c0 }

/-- Result of the capture step (lines 99–105). -/
structure CapRes where
  board : List (List Int)
  chains : List (List Move)
  last_capture : List Move
deriving DecidableEq, Repr

/-- Lines 99–105: every adjacent opponent chain with no liberty left is
recorded in `last_capture`, its cells are cleared and it is tombstoned. -/
def applyCaptures (n : Nat) (board : List (List Int)) (chains : List (List Move))
    (move : Move) : CapRes :=
  (oppChainsOf n board chains move).foldl
    (fun acc c =>
      let ch := pyGetD acc.chains c []
      if (-1) ∈ neighbourValues n acc.board ch then acc
      else
        { board := ch.foldl
            (fun b om =>
              match om.coords with
              | some (ox, oy) => cellSet b oy ox (-1)
              | none => b) acc.board
          chains := pyListSet acc.chains c []
          last_capture := acc.last_capture ++ ch })
    { board := board, chains := chains, last_capture := [] }

/-- `Game._validate_move_and_update_chains` (lines 68–111).  Returns the
state of the object after the call together with the raised error, if any:
mutations performed before a `raise` stay committed. -/
def validate_move_and_update_chains (st : ChainState) (move : Move) (ignore_ko : Bool) :
    ChainState × Option IllegalMove :=
  let ko_or_snapback :=
    (st.last_capture.length == 1) && (st.last_capture.headD mdefault == move)
  let st := { st with last_capture := [] }
  match move.coords with
  | none => (st, none)
  | some (x, y) =>
    if cellGet st.board y x ≠ -1 then (st, some IllegalMove.occupied)
    else
      let mr := applyPlacement st.board_size st.board st.chains move x y
      let cr := applyCaptures st.board_size mr.board mr.chains move
      let st := { st with board := cr.board, chains := cr.chains, last_capture := cr.last_capture }
      if ko_or_snapback && (st.last_capture.length == 1) && !ignore_ko then
        (st, some IllegalMove.ko)
      else
        let st := { st with prisoners := st.prisoners ++ st.last_capture }
        if (-1) ∈ neighbourValues st.board_size st.board (pyGetD st.chains mr.this_chain []) then
          (st, none)
        else (st, some IllegalMove.suicide)

/-- The bounds check at the top of `Game.play` (line 115): pass moves bypass
it entirely. -/
def boundsOk (n : Nat) (move : Move) : Bool :=
  match move.coords with
  | none => true
  | some (x, y) =>
    decide (0 ≤ x) && decide (x < (n : Int)) && decide (0 ≤ y) && decide (y < (n : Int))

/-- The board-state effect of `Game.play` (lines 114–120): bounds check, then
validate-and-update; an `IllegalMoveException` from the latter is re-raised
with its mutations committed. -/
def play_state (st : ChainState) (move : Move) (ignore_ko : Bool) :
    ChainState × Option IllegalMove :=
  if !boundsOk st.board_size move then (st, some IllegalMove.out_of_bounds)
  else validate_move_and_update_chains st move ignore_ko

/-- The state `_init_chains` starts from: an `n × n` board of `-1` and empty
chain/prisoner/capture lists. -/
def emptyChainState (n : Nat) : ChainState :=
  { board_size := n
    board := List.replicate n (List.replicate n (-1))
    chains := []
    prisoners := []
    last_capture := [] }

/-- Run a sequence of `play` calls (each with its own `ignore_ko` flag) from
the empty position, stopping at the first error. -/
def runMoves (n : Nat) (ms : List (Move × Bool)) : ChainState × Option IllegalMove :=
  ms.foldl
    (fun acc mb =>
      match acc.2 with
      | some _ => acc
      | none => play_state acc.1 mb.1 mb.2)
    (emptyChainState n, none)

/-- The `near` coordinate of `place_handicap_stones` (line 145). -/
def handicapNear (board_size : Nat) : Int := if 13 ≤ board_size then 3 else 2

/-- `Game.place_handicap_stones` (lines 144–152), modelled as the list of
points it adds as `AB` placements (the conversion of each point through
`Move(stone).sgf(...)` lives in the external SGF writer and is injective on
points, so the claims about which stones are placed are claims about this
list). -/
def place_handicap_stones (board_size : Nat) (n_handicaps : Nat) : List (Int × Int) :=
  let near := handicapNear board_size
  let far : Int := (board_size : Int) - 1 - near
  let middle : Int := (board_size : Int) / 2
  let stones := [(far, far), (near, near), (far, near), (near, far)]
  let stones := if n_handicaps % 2 == 1 then stones ++ [(middle, middle)] else stones
  let stones := stones ++ [(near, middle), (far, middle), (middle, near), (middle, far)]
  stones.take n_handicaps

/-- `Game.prisoner_count` (lines 166–168) as a per-player tally: the entry of
the returned list belonging to `player` counts the prisoners whose own colour
is `player` (i.e. the stones of that colour that have been captured). -/
def prisoner_count (st : ChainState) (player : Player) : Nat :=
  (st.prisoners.filter (fun m => m.player == player)).length

/-! ### Properties of the CPython set model

The two facts the correctness proofs need about `pySetList`: every listed
element was inserted (soundness), and no element is listed twice (the table
never stores a value in two slots, because the probe sequence of a value is
a function of the value alone and slots are never vacated). -/

/-- The unsigned 64-bit hash CPython uses for a small int. -/
def xHash (x : Int) : Nat := ((pyHash x) % ((2 : Int) ^ 64)).toNat

/-- The full probe sequence of `x` (independent of table contents). -/
def xPath (x : Int) : List Nat := probePath 64 (xHash x % 8) (xHash x)

/-- Slot read, totalised with `none`. -/
def slotVal (t : List (Option Int)) (s : Nat) : Option Int := t.getD s none

/-- Value `x` sits in slot `s` and every earlier slot of its probe path is
occupied by a different value (so a re-insert of `x` finds it at `s`). -/
def FindsAt (t : List (Option Int)) (x : Int) (s : Nat) : Prop :=
  ∃ pre post, xPath x = pre ++ s :: post ∧ slotVal t s = some x ∧
    ∀ s' ∈ pre, ∃ w, slotVal t s' = some w ∧ w ≠ x

/-- Table well-formedness: every stored value is found by its own probe walk. -/
def TInv (t : List (Option Int)) : Prop :=
  ∀ s v, slotVal t s = some v → FindsAt t v s

/-- Square-board well-formedness: `n` rows of length `n`. -/
def Dims (n : Nat) (board : List (List Int)) : Prop :=
  board.length = n ∧ ∀ row ∈ board, row.length = n

/-- In-bounds coordinates (the condition `play` checks and `neighbours`
filters by). -/
def InBoard (n : Nat) (x y : Int) : Prop :=
  0 ≤ x ∧ x < (n : Int) ∧ 0 ≤ y ∧ y < (n : Int)

/-! ### The occupancy invariant -/

/-- Every stone of every chain sits on an in-bounds cell that references its
chain id. -/
def InvA (n : Nat) (board : List (List Int)) (chains : List (List Move)) : Prop :=
  ∀ c : Nat, c < chains.length → ∀ m ∈ chains.getD c [],
    ∃ x y : Int, m.coords = some (x, y) ∧ InBoard n x y ∧ cellGet board y x = (c : Int)

/-- Every cell is empty or references a valid chain holding a stone there. -/
def InvB (n : Nat) (board : List (List Int)) (chains : List (List Move)) : Prop :=
  ∀ x y : Int, InBoard n x y →
    cellGet board y x = -1 ∨
    ∃ c : Nat, c < chains.length ∧ cellGet board y x = (c : Int) ∧
      ∃ m ∈ chains.getD c [], m.coords = some (x, y)

/-- The committed-state invariant maintained by every successful `play`. -/
def StInv (st : ChainState) : Prop :=
  Dims st.board_size st.board ∧ InvA st.board_size st.board st.chains ∧
    InvB st.board_size st.board st.chains

/-- Everything the invariant proofs need to know about the placement/merge
step (lines 86–97), packaged as a `Prop`-valued structure. -/
structure PlacementFacts (n : Nat) (board : List (List Int)) (chains : List (List Move))
    (move : Move) (x y : Int) (mr : MergeRes) : Prop where
  dims : Dims n mr.board
  invA : InvA n mr.board mr.chains
  invB : InvB n mr.board mr.chains
  tc_nonneg : 0 ≤ mr.this_chain
  tc_lt : mr.this_chain.toNat < mr.chains.length
  cell_target : cellGet mr.board y x = mr.this_chain
  move_mem : move ∈ mr.chains.getD mr.this_chain.toNat []
  head_player : chainHeadPlayer mr.chains mr.this_chain = move.player
  empty_preserved : ∀ x' y' : Int, InBoard n x' y' → ¬(x' = x ∧ y' = y) →
    cellGet board y' x' = -1 → cellGet mr.board y' x' = -1
  chains_sub : ∀ s : Move, ∀ d : Nat, s ∈ mr.chains.getD d [] →
    s = move ∨ ∃ dc : Nat, dc < chains.length ∧ s ∈ chains.getD dc []

/-! ### Specification of the capture step -/

/-- Everything the invariant proofs need to know about the capture step
(lines 99–105), relative to the board/chains it started from. -/
structure CaptureFacts (n : Nat) (board : List (List Int)) (chains : List (List Move))
    (cr : CapRes) : Prop where
  dims : Dims n cr.board
  invA : InvA n cr.board cr.chains
  invB : InvB n cr.board cr.chains
  len_eq : cr.chains.length = chains.length
  chains_cases : ∀ d : Nat, cr.chains.getD d [] = chains.getD d [] ∨ cr.chains.getD d [] = []
  capture_origin : ∀ s ∈ cr.last_capture, ∃ c : Nat, c < chains.length ∧ s ∈ chains.getD c []
  empty_preserved : ∀ x y : Int, InBoard n x y → cellGet board y x = -1 →
    cellGet cr.board y x = -1

/-! ### Concrete positions used by the claims -/

/-- Black move at a point. -/
def mB (x y : Int) : Move := { player := Player.B, coords := some (x, y) }

/-- White move at a point. -/
def mW (x y : Int) : Move := { player := Player.W, coords := some (x, y) }

/-- Two Black stones on a 2×2 board: White (0,0) is then a suicide. -/
def suicideDemo : List (Move × Bool) := [(mB 0 1, false), (mB 1 0, false)]

/-- The 5×5 capture position of §8.3: lone White (2,2) surrounded by Black. -/
def captureDemo : List (Move × Bool) :=
  [(mW 2 2, false), (mB 1 2, false), (mB 3 2, false), (mB 2 1, false), (mB 2 3, false)]

/-- A standard ko on a 4×4 board: the last move, Black (2,1), captures the
single White stone at (1,1). -/
def koDemo : List (Move × Bool) :=
  [(mW 1 1, false), (mB 1 0, false), (mB 0 1, false), (mB 1 2, false),
   (mW 2 0, false), (mW 3 1, false), (mW 2 2, false), (mB 2 1, false)]

/-- Nine isolated stones on a 5×5 board followed by White (2,1), whose
friendly neighbour chains have ids 1 and 8. -/
def mergeDemo : List (Move × Bool) :=
  [(mB 0 0, false), (mW 2 0, false), (mB 4 0, false), (mB 0 2, false), (mB 4 2, false),
   (mB 0 4, false), (mB 2 4, false), (mB 4 4, false), (mW 2 2, false), (mW 2 1, false)]

/-- Two Black stones on a 3×3 board that a third Black stone will connect. -/
def pairDemo : List (Move × Bool) := [(mB 0 0, false), (mB 2 0, false)]

/-! ### Claims C9 and C10 -/

/-- Modelled from the spec: the candidate-point list of §4.4, in the spec's
own wording — `near = 2` if board_size < 13 else 3, `far = board_size - 1 -
near`, `middle = board_size // 2`; candidates in priority order with
`(middle, middle)` present only for an odd handicap count. -/
def handicapSpecCandidates (board_size : Nat) (n_handicaps : Nat) : List (Int × Int) :=
  let near : Int := if board_size < 13 then 2 else 3
  let far : Int := (board_size : Int) - 1 - near
  let middle : Int := (board_size : Int) / 2
  [(far, far), (near, near), (far, near), (near, far)] ++
    (if n_handicaps % 2 == 1 then [(middle, middle)] else []) ++
    [(near, middle), (far, middle), (middle, near), (middle, far)]

/-! ### Claims C2 and C3: ko and suicide -/

/-- The distinct empty cells orthogonally adjacent to a list of stones — the
chain's liberties.  The code itself only tests `-1 ∈ neighbours(...)`; this
definition names the liberty cells so that "exactly one liberty" is
expressible. -/
def libertyCoords (n : Nat) (board : List (List Int)) (moves : List Move) :
    List (Int × Int) :=
  (moves.flatMap fun m =>
    match m.coords with
    | none => []
    | some (x, y) =>
      [((-1 : Int), (0 : Int)), (1, 0), (0, -1), (0, 1)].filterMap fun dydx =>
        let dy := dydx.1
        let dx := dydx.2
        if (0 ≤ x + dx ∧ x + dx < (n : Int) ∧ 0 ≤ y + dy ∧ y + dy < (n : Int)) ∧
            cellGet board (y + dy) (x + dx) = -1 then
          some (x + dx, y + dy)
        else none).dedup

/-- A 3×3 board with one White stone: Black (0,0) is then a legal self-atari. -/
def atariDemo : List (Move × Bool) := [(mW 1 0, false)]

/-- Modelled from the spec: a `GameNode` carries the move that created it
(`none` for the root) and an ordered list of children in creation order. -/
inductive GNode where
  | node (move : Option Move) (children : List GNode)

/-- Modelled from the spec: the move stored at a node. -/
def GNode.moveOf : GNode → Option Move
  | GNode.node m _ => m

/-- Modelled from the spec: the ordered children of a node. -/
def GNode.childrenOf : GNode → List GNode
  | GNode.node _ cs => cs

/-- Modelled from the spec: follow a path of child indices down from a node;
`none` if an index is out of range. This renders the Python object pointer
`current_node` as the index path from the root. -/
def GNode.getAt : List Nat → GNode → Option GNode
  | [], g => some g
  | i :: p, g =>
    match (GNode.childrenOf g)[i]? with
    | some c => GNode.getAt p c
    | none => none

/-- Modelled from the spec: the moves encountered walking down a path (the
`move_with_placements` stream that `_init_chains` replays); a root-like node
with no move contributes nothing. -/
def GNode.movesAlong : List Nat → GNode → List Move
  | [], _ => []
  | i :: p, g =>
    match (GNode.childrenOf g)[i]? with
    | some c =>
      (match GNode.moveOf c with
       | some m => [m]
       | none => []) ++ GNode.movesAlong p c
    | none => []

/-- Modelled from the spec: `GameNode.play` appends a fresh child holding the
move to the node at the given path (the current node). -/
def GNode.appendAt : List Nat → Move → GNode → GNode
  | [], m, GNode.node mv cs => GNode.node mv (cs ++ [GNode.node (some m) []])
  | i :: p, m, GNode.node mv cs =>
    match cs[i]? with
    | some c => GNode.node mv (cs.set i (GNode.appendAt p m c))
    | none => GNode.node mv cs

/-- A game session: the move tree, the current node (as an index path from
the root), and the incremental board/chain state of `Game`. -/
structure Game where
  root : GNode
  path : List Nat
  cs : ChainState

/-- The replay `_init_chains` performs (lines 55–66): each stored move is
revalidated with `ignore_ko := True`, and an `IllegalMoveException` aborts
the replay (it escapes as an `Exception`). -/
def replayMoves (n : Nat) (ms : List Move) : ChainState × Option IllegalMove :=
  ms.foldl
    (fun acc m =>
      match acc.2 with
      | some _ => acc
      | none => validate_move_and_update_chains acc.1 m true)
    (emptyChainState n, none)

/-- A fresh game (lines 39–46): empty root node, current node at the root,
empty `n × n` chain state. -/
def Game.initGame (n : Nat) : Game :=
  { root := GNode.node none [], path := [], cs := emptyChainState n }

/-- `Game._init_chains` (lines 55–66): rebuild the chain state by replaying
the moves from the root to the current node. -/
def Game.init_chains (g : Game) : Game :=
  { g with cs := (replayMoves g.cs.board_size (GNode.movesAlong g.path g.root)).1 }

/-- `Game.play` (lines 113–124): bounds check then validation (a failure is
re-raised with its state mutations kept and the tree untouched); on success
the move is appended as a new child of the current node and the session
advances to it. -/
def Game.play (g : Game) (move : Move) (ignore_ko : Bool) : Game × Option IllegalMove :=
  match play_state g.cs move ignore_ko with
  | (st, some e) => ({ g with cs := st }, some e)
  | (st, none) =>
    match GNode.getAt g.path g.root with
    | none => ({ g with cs := st }, none)
    | some nd =>
      ({ root := GNode.appendAt g.path move g.root
         path := g.path ++ [nd.childrenOf.length]
         cs := st }, none)

/-- `Game.undo` (lines 126–129): if the current node is not the root, move to
its parent and rebuild the chain state. -/
def Game.undo (g : Game) : Game :=
  if g.path = [] then g
  else Game.init_chains { g with path := g.path.dropLast }

/-- `Game.redo` (lines 131–135): if the current node has children, move to
the most recently added one (`children[-1]`) and rebuild the chain state. -/
def Game.redo (g : Game) : Game :=
  match GNode.getAt g.path g.root with
  | none => g
  | some nd =>
    match nd.childrenOf.length with
    | 0 => g
    | Nat.succ k => Game.init_chains { g with path := g.path ++ [k] }

/-- `Game.switch_branch` (lines 137–142): if the current node has a parent
with more than one child, move to the sibling at `(index + direction) %
sibling_count` (Python `%`, i.e. `Int.emod`) and rebuild the chain state. -/
def Game.switch_branch (g : Game) (direction : Int) : Game :=
  match g.path.getLast?, GNode.getAt g.path.dropLast g.root with
  | some ix, some par =>
    if 1 < par.childrenOf.length then
      Game.init_chains { g with path := g.path.dropLast ++
        [(((ix : Int) + direction) % (par.childrenOf.length : Int)).toNat] }
    else g
  | _, _ => g

/-- Sessions reachable from a fresh game by successfully played moves only
(the premise of the undo/redo round-trip claim). -/
inductive PlayReachable : Game → Prop where
  | init (n : Nat) : PlayReachable (Game.initGame n)
  | play (g : Game) (m : Move) (ig : Bool) (g' : Game) :
      PlayReachable g → Game.play g m ig = (g', none) → PlayReachable g'

/-- Sessions reachable from a fresh game by successfully played moves and
tree navigation. -/
inductive Reachable : Game → Prop where
  | init (n : Nat) : Reachable (Game.initGame n)
  | play (g : Game) (m : Move) (ig : Bool) (g' : Game) :
      Reachable g → Game.play g m ig = (g', none) → Reachable g'
  | undo (g : Game) : Reachable g → Reachable (Game.undo g)
  | redo (g : Game) : Reachable g → Reachable (Game.redo g)
  | switch (g : Game) (d : Int) : Reachable g → Reachable (Game.switch_branch g d)

/-- The spine of a game in which every node has a single child: the shape of
the tree after a pure sequence of plays. -/
def lineChain : List Move → List GNode
  | [] => []
  | m :: ms => [GNode.node (some m) (lineChain ms)]

/-- The shape of a session built by plays alone: the tree is a single line
of moves, the current node is its tip, and the chain state agrees with a
full (error-free) replay. -/
def PlayInv (g : Game) : Prop :=
  ∃ ms : List Move,
    g.root = GNode.node none (lineChain ms) ∧
    g.path = List.replicate ms.length 0 ∧
    g.cs = (replayMoves g.cs.board_size ms).1 ∧
    (replayMoves g.cs.board_size ms).2 = none

/-- Every path present in the tree replays without error under
`ignore_ko := true` — the guarantee `_init_chains` relies on. -/
def TreeLegal (bs : Nat) (root : GNode) : Prop :=
  ∀ p : List Nat, (GNode.getAt p root).isSome →
    (replayMoves bs (GNode.movesAlong p root)).2 = none

/-- Invariant of reachable sessions: the current path resolves in the tree,
the chain state agrees with an `_init_chains` replay of the current path, and
every stored variation replays legally. -/
def Good (g : Game) : Prop :=
  (GNode.getAt g.path g.root).isSome ∧
  g.cs = (replayMoves g.cs.board_size (GNode.movesAlong g.path g.root)).1 ∧
  TreeLegal g.cs.board_size g.root

/-- A 3×3 session with two sibling first moves: Black (0,0) was played,
undone, and Black (1,1) played, so the root has two children and the current
node is the second. -/
def c8g : Game :=
  (Game.play (Game.undo ((Game.play (Game.initGame 3) (mB 0 0) false).1)) (mB 1 1) false).1

theorem pySetInsert_eq_walk (t : List (Option Int)) (x : Int) :
    pySetInsert t x = insertWalk t x (xPath x) := rfl

theorem slotVal_eq (t : List (Option Int)) (s : Nat) : slotVal t s = t[s]?.getD none := by
  simp [slotVal, List.getD_eq_getElem?_getD]

theorem slotVal_replicate (n s : Nat) : slotVal (List.replicate n (none : Option Int)) s = none := by
  rw [slotVal_eq, List.getElem?_replicate]
  by_cases h : s < n <;> simp [h]

theorem slotVal_set_self (t : List (Option Int)) (s : Nat) (v : Option Int)
    (h : s < t.length) : slotVal (t.set s v) s = v := by
  rw [slotVal_eq, List.getElem?_set_eq_of_lt v h]; rfl

theorem slotVal_set_other (t : List (Option Int)) (s s' : Nat) (v : Option Int)
    (h : s ≠ s') : slotVal (t.set s v) s' = slotVal t s' := by
  rw [slotVal_eq, List.getElem?_set_ne h, ← slotVal_eq]

theorem probePath_lt (fuel : Nat) : ∀ i p : Nat, i < 8 → ∀ s ∈ probePath fuel i p, s < 8 := by
  induction fuel with
  | zero => intro i p h s hs; simp [probePath] at hs; omega
  | succ n ih =>
    intro i p h s hs
    simp only [probePath, List.mem_cons] at hs
    rcases hs with rfl | hs
    · exact h
    · exact ih _ _ (Nat.mod_lt _ (by omega)) s hs

theorem xPath_lt (x : Int) : ∀ s ∈ xPath x, s < 8 :=
  probePath_lt 64 _ _ (Nat.mod_lt _ (by omega))

theorem insertWalk_cons (t : List (Option Int)) (x : Int) (s : Nat) (rest : List Nat) :
    insertWalk t x (s :: rest) =
      match t.getD s none with
      | none => t.set s (some x)
      | some y => if y = x then t else insertWalk t x rest := rfl

theorem insertWalk_length (x : Int) :
    ∀ (path : List Nat) (t : List (Option Int)), (insertWalk t x path).length = t.length := by
  intro path
  induction path with
  | nil => intro t; rfl
  | cons s rest ih =>
    intro t
    rw [insertWalk_cons]
    cases hslot : t.getD s none with
    | none => simp
    | some y => by_cases hxy : y = x <;> simp [hxy, ih]

/-- Classification of one insertion walk: either it was a no-op (the value
was found, or the fuel ran out on a fully blocked path), or it wrote the
value into the first empty slot of its probe path. -/
theorem insertWalk_cases (x : Int) :
    ∀ (path : List Nat) (t : List (Option Int)),
      (insertWalk t x path = t ∧
        ((∃ pre s post, path = pre ++ s :: post ∧ slotVal t s = some x ∧
            ∀ s' ∈ pre, ∃ w, slotVal t s' = some w ∧ w ≠ x) ∨
          (∀ s ∈ path, ∃ w, slotVal t s = some w ∧ w ≠ x))) ∨
      (∃ pre s post, path = pre ++ s :: post ∧ slotVal t s = none ∧
        (∀ s' ∈ pre, ∃ w, slotVal t s' = some w ∧ w ≠ x) ∧
        insertWalk t x path = t.set s (some x)) := by
  intro path
  induction path with
  | nil => intro t; left; exact ⟨rfl, Or.inr (by simp)⟩
  | cons s rest ih =>
    intro t
    cases hslot : t.getD s none with
    | none =>
      right
      exact ⟨[], s, rest, rfl, hslot, by simp, by rw [insertWalk_cons, hslot]⟩
    | some y =>
      by_cases hxy : y = x
      · subst hxy
        left
        exact ⟨by rw [insertWalk_cons, hslot]; simp, Or.inl ⟨[], s, rest, rfl, hslot, by simp⟩⟩
      · have hstep : insertWalk t x (s :: rest) = insertWalk t x rest := by
          rw [insertWalk_cons, hslot]; simp [hxy]
        rcases ih t with ⟨heq, hfound | hall⟩ | ⟨pre, s0, post, hdec, hempty, hpre, heq⟩
        · left
          refine ⟨hstep.trans heq, Or.inl ?_⟩
          obtain ⟨pre, s0, post, hdec, hs0, hpre⟩ := hfound
          refine ⟨s :: pre, s0, post, by rw [hdec]; rfl, hs0, ?_⟩
          intro s' hs'
          rcases List.mem_cons.mp hs' with rfl | hs'
          · exact ⟨y, hslot, hxy⟩
          · exact hpre s' hs'
        · left
          refine ⟨hstep.trans heq, Or.inr ?_⟩
          intro s' hs'
          rcases List.mem_cons.mp hs' with rfl | hs'
          · exact ⟨y, hslot, hxy⟩
          · exact hall s' hs'
        · right
          refine ⟨s :: pre, s0, post, by rw [hdec]; rfl, hempty, ?_, hstep.trans heq⟩
          intro s' hs'
          rcases List.mem_cons.mp hs' with rfl | hs'
          · exact ⟨y, hslot, hxy⟩
          · exact hpre s' hs'

theorem two_decomp {α : Type} {l p1 p2 q1 q2 : List α} {s1 s2 : α}
    (h1 : l = p1 ++ s1 :: q1) (h2 : l = p2 ++ s2 :: q2) :
    s1 = s2 ∨ s1 ∈ p2 ∨ s2 ∈ p1 := by
  have e1 : l[p1.length]? = some s1 := by
    rw [h1, List.getElem?_append_right (le_refl _)]
    simp
  have e2 : l[p2.length]? = some s2 := by
    rw [h2, List.getElem?_append_right (le_refl _)]
    simp
  rcases Nat.lt_trichotomy p1.length p2.length with hlt | heq | hgt
  · right; left
    have : l[p1.length]? = p2[p1.length]? := by rw [h2, List.getElem?_append_left hlt]
    rw [this] at e1
    have := List.getElem?_eq_some.mp e1
    obtain ⟨hl, rfl⟩ := this
    exact List.getElem_mem hl
  · left
    rw [heq] at e1
    rw [e1] at e2
    exact Option.some_inj.mp e2
  · right; right
    have : l[p2.length]? = p1[p2.length]? := by rw [h1, List.getElem?_append_left hgt]
    rw [this] at e2
    have := List.getElem?_eq_some.mp e2
    obtain ⟨hl, rfl⟩ := this
    exact List.getElem_mem hl

theorem TInv_unique {t : List (Option Int)} (h : TInv t) :
    ∀ s1 s2 v, slotVal t s1 = some v → slotVal t s2 = some v → s1 = s2 := by
  intro s1 s2 v h1 h2
  obtain ⟨pre1, post1, hd1, _, hp1⟩ := h _ _ h1
  obtain ⟨pre2, post2, hd2, _, hp2⟩ := h _ _ h2
  rcases two_decomp hd1.symm.symm hd2.symm.symm with heq | hmem | hmem
  · exact heq
  · obtain ⟨w, hw, hwx⟩ := hp2 s1 hmem
    rw [h1] at hw
    exact absurd (Option.some_inj.mp hw).symm hwx
  · obtain ⟨w, hw, hwx⟩ := hp1 s2 hmem
    rw [h2] at hw
    exact absurd (Option.some_inj.mp hw).symm hwx

theorem TInv_insert {t : List (Option Int)} (x : Int) (ht : TInv t) (hlen : t.length = 8) :
    TInv (pySetInsert t x) := by
  rw [pySetInsert_eq_walk]
  rcases insertWalk_cases x (xPath x) t with ⟨heq, _⟩ | ⟨pre, s, post, hdec, hempty, hpre, heq⟩
  · rw [heq]; exact ht
  · rw [heq]
    have hs8 : s < t.length := by
      rw [hlen]
      exact xPath_lt x s (by rw [hdec]; exact List.mem_append_right _ (List.mem_cons_self _ _))
    intro s1 v hval
    by_cases hs : s1 = s
    · subst hs
      rw [slotVal_set_self t s1 (some x) hs8] at hval
      obtain rfl : x = v := Option.some_inj.mp hval
      refine ⟨pre, post, hdec, slotVal_set_self t s1 (some x) hs8, ?_⟩
      intro s' hs'
      obtain ⟨w, hw, hwx⟩ := hpre s' hs'
      have hne : s1 ≠ s' := by
        rintro rfl
        rw [hempty] at hw
        exact Option.noConfusion hw
      rw [slotVal_set_other t s1 s' (some x) hne]
      exact ⟨w, hw, hwx⟩
    · rw [slotVal_set_other t s s1 (some x) (fun h => hs h.symm)] at hval
      obtain ⟨pre1, post1, hd1, hs1, hp1⟩ := ht s1 v hval
      refine ⟨pre1, post1, hd1, ?_, ?_⟩
      · rw [slotVal_set_other t s s1 (some x) (fun h => hs h.symm)]
        exact hs1
      · intro s' hs'
        obtain ⟨w, hw, hwx⟩ := hp1 s' hs'
        have hne : s ≠ s' := by
          rintro rfl
          rw [hempty] at hw
          exact Option.noConfusion hw
        rw [slotVal_set_other t s s' (some x) hne]
        exact ⟨w, hw, hwx⟩

theorem pySetInsert_length (t : List (Option Int)) (x : Int) :
    (pySetInsert t x).length = t.length := by
  rw [pySetInsert_eq_walk]; exact insertWalk_length x (xPath x) t

theorem TInv_foldl (xs : List Int) :
    ∀ t : List (Option Int), TInv t → t.length = 8 →
      TInv (xs.foldl pySetInsert t) ∧ (xs.foldl pySetInsert t).length = 8 := by
  induction xs with
  | nil => intro t ht hl; exact ⟨ht, hl⟩
  | cons a xs ih =>
    intro t ht hl
    exact ih (pySetInsert t a) (TInv_insert a ht hl) ((pySetInsert_length t a).trans hl)

theorem TInv_empty : TInv (List.replicate 8 (none : Option Int)) := by
  intro s v hval
  rw [slotVal_replicate] at hval
  exact Option.noConfusion hval

theorem filterMap_id_nodup :
    ∀ t : List (Option Int),
      (∀ s1 s2 v, slotVal t s1 = some v → slotVal t s2 = some v → s1 = s2) →
      (t.filterMap id).Nodup := by
  intro t
  induction t with
  | nil => intro _; simp
  | cons a t ih =>
    intro h
    have hdesc : ∀ s1 s2 v, slotVal t s1 = some v → slotVal t s2 = some v → s1 = s2 := by
      intro s1 s2 v h1 h2
      have := h (s1 + 1) (s2 + 1) v (by simpa [slotVal] using h1) (by simpa [slotVal] using h2)
      omega
    cases a with
    | none => simpa using ih hdesc
    | some v =>
      simp only [List.filterMap_cons, id_eq]
      rw [List.nodup_cons]
      refine ⟨?_, ih hdesc⟩
      intro hv
      obtain ⟨o, ho, hov⟩ := List.mem_filterMap.mp hv
      obtain rfl : o = some v := hov
      obtain ⟨i, hi, hgi⟩ : ∃ i : Nat, i < t.length ∧ t[i]? = some (some v) := by
        obtain ⟨i, hi, hg⟩ := List.mem_iff_getElem.mp ho
        exact ⟨i, hi, by rw [List.getElem?_eq_getElem hi, hg]⟩
      have h0 : slotVal (some v :: t) 0 = some v := rfl
      have hsucc : slotVal (some v :: t) (i + 1) = some v := by
        simp [slotVal, List.getD_eq_getElem?_getD, hgi]
      exact Nat.noConfusion (h 0 (i + 1) v h0 hsucc)

/-- The list a CPython set iterates as has no duplicates. -/
theorem pySetList_nodup (xs : List Int) : (pySetList xs).Nodup := by
  unfold pySetList
  obtain ⟨ht, _⟩ := TInv_foldl xs (List.replicate 8 none) TInv_empty (by simp)
  exact filterMap_id_nodup _ (TInv_unique ht)

theorem insertWalk_mem (x : Int) :
    ∀ (path : List Nat) (t : List (Option Int)) (o : Option Int),
      o ∈ insertWalk t x path → o = some x ∨ o ∈ t := by
  intro path
  induction path with
  | nil => intro t o h; exact Or.inr h
  | cons s rest ih =>
    intro t o h
    simp only [insertWalk] at h
    cases hslot : t.getD s none with
    | none =>
      rw [hslot] at h
      rcases List.mem_or_eq_of_mem_set h with hm | hm
      · exact Or.inr hm
      · exact Or.inl hm
    | some y =>
      rw [hslot] at h
      by_cases hxy : y = x
      · simp only [hxy, if_pos rfl] at h
        exact Or.inr h
      · simp only [if_neg hxy] at h
        exact ih t o h

/-- Soundness: everything a CPython set iterates was inserted into it. -/
theorem mem_pySetList {xs : List Int} {x : Int} (h : x ∈ pySetList xs) : x ∈ xs := by
  unfold pySetList at h
  obtain ⟨o, ho, hov⟩ := List.mem_filterMap.mp h
  obtain rfl : o = some x := hov
  have key : ∀ (ys : List Int) (t : List (Option Int)),
      some x ∈ ys.foldl pySetInsert t → some x ∈ t ∨ x ∈ ys := by
    intro ys
    induction ys with
    | nil => intro t h; exact Or.inl h
    | cons a ys ih =>
      intro t h
      rcases ih (pySetInsert t a) h with hm | hm
      · rw [pySetInsert_eq_walk] at hm
        rcases insertWalk_mem a (xPath a) t (some x) hm with he | he
        · obtain rfl : x = a := Option.some_inj.mp he
          exact Or.inr (List.mem_cons_self _ _)
        · exact Or.inl he
      · exact Or.inr (List.mem_cons_of_mem _ hm)
  rcases key xs (List.replicate 8 none) ho with hm | hm
  · exact absurd (List.eq_of_mem_replicate hm) (Option.noConfusion)
  · exact hm

/-! ### Board access lemmas -/

theorem pyGetD_nonneg {α : Type} (l : List α) (i : Int) (d : α) (h : 0 ≤ i) :
    pyGetD l i d = l.getD i.toNat d := by
  have h' : ¬ i < 0 := by omega
  simp [pyGetD, h', h]

theorem pyListSet_nonneg {α : Type} (l : List α) (i : Int) (v : α) (h : 0 ≤ i) :
    pyListSet l i v = l.set i.toNat v := by
  have h' : ¬ i < 0 := by omega
  simp [pyListSet, h', h]

theorem getD_set_self {α : Type} (l : List α) (i : Nat) (v d : α) (h : i < l.length) :
    (l.set i v).getD i d = v := by
  rw [List.getD_eq_getElem?_getD, List.getElem?_set_eq_of_lt v h]; rfl

theorem getD_set_other {α : Type} (l : List α) (i j : Nat) (v d : α) (h : i ≠ j) :
    (l.set i v).getD j d = l.getD j d := by
  rw [List.getD_eq_getElem?_getD, List.getElem?_set_ne h, ← List.getD_eq_getElem?_getD]

theorem getD_map_lt {α β : Type} (f : α → β) (l : List α) (i : Nat) (d : β) (d' : α)
    (h : i < l.length) : (l.map f).getD i d = f (l.getD i d') := by
  rw [List.getD_eq_getElem?_getD, List.getElem?_map, List.getElem?_eq_getElem h]
  rw [List.getD_eq_getElem?_getD, List.getElem?_eq_getElem h]
  rfl

theorem getD_append_lt {α : Type} (l l' : List α) (i : Nat) (d : α) (h : i < l.length) :
    (l ++ l').getD i d = l.getD i d := by
  rw [List.getD_eq_getElem?_getD, List.getElem?_append_left h, ← List.getD_eq_getElem?_getD]

theorem getD_replicate {α : Type} (n i : Nat) (a d : α) (h : i < n) :
    (List.replicate n a).getD i d = a := by
  rw [List.getD_eq_getElem?_getD, List.getElem?_replicate]
  simp [h]

theorem headD_append {α : Type} (l l' : List α) (d : α) (h : l ≠ []) :
    (l ++ l').headD d = l.headD d := by
  cases l with
  | nil => exact absurd rfl h
  | cons a t => rfl

theorem Dims.row {n : Nat} {board : List (List Int)} (h : Dims n board) {y : Nat}
    (hy : y < n) : (board.getD y []).length = n := by
  have hyl : y < board.length := by rw [h.1]; exact hy
  have : board.getD y [] ∈ board := by
    rw [List.getD_eq_getElem?_getD, List.getElem?_eq_getElem hyl]
    exact List.getElem_mem hyl
  exact h.2 _ this

theorem cellGet_expand {n : Nat} {board : List (List Int)} (h : Dims n board) {x y : Int}
    (hin : InBoard n x y) :
    cellGet board y x = (board.getD y.toNat []).getD x.toNat (-1) := by
  obtain ⟨hx0, hxn, hy0, hyn⟩ := hin
  rw [cellGet, pyGetD_nonneg _ _ _ hy0, pyGetD_nonneg _ _ _ hx0]

theorem cellSet_expand {n : Nat} {board : List (List Int)} (h : Dims n board) {x y : Int}
    (hin : InBoard n x y) (v : Int) :
    cellSet board y x v = board.set y.toNat ((board.getD y.toNat []).set x.toNat v) := by
  obtain ⟨hx0, hxn, hy0, hyn⟩ := hin
  rw [cellSet, pyGetD_nonneg _ _ _ hy0, pyListSet_nonneg _ _ _ hx0, pyListSet_nonneg _ _ _ hy0]

theorem toNat_lt_of_inboard {n : Nat} {x y : Int} (hin : InBoard n x y) :
    x.toNat < n ∧ y.toNat < n := by
  obtain ⟨hx0, hxn, hy0, hyn⟩ := hin
  omega

theorem cellSet_dims {n : Nat} {board : List (List Int)} (h : Dims n board) {x y : Int}
    (hin : InBoard n x y) (v : Int) : Dims n (cellSet board y x v) := by
  rw [cellSet_expand h hin v]
  constructor
  · rw [List.length_set, h.1]
  · intro row hrow
    rcases List.mem_or_eq_of_mem_set hrow with hm | hm
    · exact h.2 _ hm
    · rw [hm, List.length_set]
      exact h.row (toNat_lt_of_inboard hin).2

theorem cellGet_cellSet_self {n : Nat} {board : List (List Int)} (h : Dims n board)
    {x y : Int} (hin : InBoard n x y) (v : Int) :
    cellGet (cellSet board y x v) y x = v := by
  obtain ⟨hxn, hyn⟩ := toNat_lt_of_inboard hin
  have hD' : Dims n (cellSet board y x v) := cellSet_dims h hin v
  rw [cellGet_expand hD' hin, cellSet_expand h hin v]
  rw [getD_set_self _ _ _ _ (by rw [h.1]; exact hyn)]
  rw [getD_set_self _ _ _ _ (by rw [h.row hyn]; exact hxn)]

theorem cellGet_cellSet_other {n : Nat} {board : List (List Int)} (h : Dims n board)
    {x y x' y' : Int} (hin : InBoard n x y) (hin' : InBoard n x' y')
    (hne : ¬(x' = x ∧ y' = y)) (v : Int) :
    cellGet (cellSet board y x v) y' x' = cellGet board y' x' := by
  have hD' : Dims n (cellSet board y x v) := cellSet_dims h hin v
  rw [cellGet_expand hD' hin', cellGet_expand h hin', cellSet_expand h hin v]
  by_cases hy : y'.toNat = y.toNat
  · have hyint : y' = y := by
      obtain ⟨_, _, hy0, _⟩ := hin
      obtain ⟨_, _, hy0', _⟩ := hin'
      omega
    have hxne : x'.toNat ≠ x.toNat := by
      obtain ⟨hx0, _, _, _⟩ := hin
      obtain ⟨hx0', _, _, _⟩ := hin'
      intro hc
      exact hne ⟨by omega, hyint⟩
    rw [hy, getD_set_self _ _ _ _ (by rw [h.1]; exact (toNat_lt_of_inboard hin).2)]
    rw [getD_set_other _ _ _ _ _ (fun hc => hxne hc.symm)]
  · rw [getD_set_other _ _ _ _ _ (fun hc => hy hc.symm)]

theorem dims_map_map {n : Nat} {board : List (List Int)} (h : Dims n board) (f : Int → Int) :
    Dims n (board.map fun line => line.map f) := by
  constructor
  · rw [List.length_map, h.1]
  · intro row hrow
    obtain ⟨row0, hrow0, rfl⟩ := List.mem_map.mp hrow
    rw [List.length_map]
    exact h.2 _ hrow0

theorem cellGet_map_map {n : Nat} {board : List (List Int)} (h : Dims n board)
    (f : Int → Int) {x y : Int} (hin : InBoard n x y) :
    cellGet (board.map fun line => line.map f) y x = f (cellGet board y x) := by
  obtain ⟨hxn, hyn⟩ := toNat_lt_of_inboard hin
  rw [cellGet_expand (dims_map_map h f) hin, cellGet_expand h hin]
  rw [getD_map_lt _ _ _ _ [] (by rw [h.1]; exact hyn)]
  rw [getD_map_lt _ _ _ _ (-1) (by rw [h.row hyn]; exact hxn)]

theorem neighbourValues_mem {n : Nat} {board : List (List Int)} {ms : List Move} {v : Int}
    (h : v ∈ neighbourValues n board ms) :
    ∃ x y : Int, InBoard n x y ∧ cellGet board y x = v := by
  unfold neighbourValues at h
  obtain ⟨m, hm, hv⟩ := List.mem_flatMap.mp h
  cases hc : m.coords with
  | none => rw [hc] at hv; simp at hv
  | some p =>
    obtain ⟨mx, my⟩ := p
    rw [hc] at hv
    obtain ⟨dydx, hd, hval⟩ := List.mem_filterMap.mp hv
    by_cases hb : 0 ≤ mx + dydx.2 ∧ mx + dydx.2 < (n : Int) ∧
        0 ≤ my + dydx.1 ∧ my + dydx.1 < (n : Int)
    · rw [if_pos hb] at hval
      exact ⟨mx + dydx.2, my + dydx.1, hb, Option.some_inj.mp hval⟩
    · rw [if_neg hb] at hval
      exact Option.noConfusion hval

theorem nbChainsOf_mem {n : Nat} {board : List (List Int)} {chains : List (List Move)}
    {move : Move} {c : Int} (h : c ∈ nbChainsOf n board chains move) :
    0 ≤ c ∧ chainHeadPlayer chains c = move.player ∧
      ∃ x y : Int, InBoard n x y ∧ cellGet board y x = c := by
  unfold nbChainsOf at h
  have h1 := mem_pySetList h
  obtain ⟨h2, h3⟩ := List.mem_filter.mp h1
  have h4 := mem_pySetList h2
  simp only [Bool.and_eq_true, decide_eq_true_eq, beq_iff_eq] at h3
  exact ⟨h3.1, h3.2, neighbourValues_mem h4⟩

theorem oppChainsOf_mem {n : Nat} {board : List (List Int)} {chains : List (List Move)}
    {move : Move} {c : Int} (h : c ∈ oppChainsOf n board chains move) :
    0 ≤ c ∧ chainHeadPlayer chains c ≠ move.player ∧
      ∃ x y : Int, InBoard n x y ∧ cellGet board y x = c := by
  unfold oppChainsOf at h
  have h1 := mem_pySetList h
  obtain ⟨h2, h3⟩ := List.mem_filter.mp h1
  have h4 := mem_pySetList h2
  simp only [Bool.and_eq_true, decide_eq_true_eq, Bool.not_eq_true', beq_eq_false_iff_ne,
    ne_eq] at h3
  exact ⟨h3.1, h3.2, neighbourValues_mem h4⟩

/-- A chain id read from the board is a valid index of a non-tombstoned chain. -/
theorem nb_id_valid {n : Nat} {board : List (List Int)} {chains : List (List Move)}
    (hB : InvB n board chains) {c : Int}
    (hc : ∃ x y : Int, InBoard n x y ∧ cellGet board y x = c) (hge : 0 ≤ c) :
    c.toNat < chains.length ∧ chains.getD c.toNat [] ≠ [] ∧ ((c.toNat : Nat) : Int) = c := by
  obtain ⟨x, y, hin, hcell⟩ := hc
  rcases hB x y hin with hempty | ⟨cN, hlt, hval, m, hm, _⟩
  · rw [hcell] at hempty; omega
  · rw [hcell] at hval
    have hcn : c.toNat = cN := by omega
    refine ⟨by omega, ?_, by omega⟩
    rw [hcn]
    exact List.ne_nil_of_mem hm

/-! ### The capture-clearing fold -/

theorem clear_fold_spec (n : Nat) :
    ∀ (ms : List Move) (b : List (List Int)), Dims n b →
      (∀ m ∈ ms, ∃ px py : Int, m.coords = some (px, py) ∧ InBoard n px py) →
      Dims n (ms.foldl (fun b om => match om.coords with
          | some (ox, oy) => cellSet b oy ox (-1)
          | none => b) b) ∧
      ∀ x y : Int, InBoard n x y →
        cellGet (ms.foldl (fun b om => match om.coords with
            | some (ox, oy) => cellSet b oy ox (-1)
            | none => b) b) y x =
          if ∃ m ∈ ms, m.coords = some (x, y) then -1 else cellGet b y x := by
  intro ms
  induction ms with
  | nil =>
    intro b hD _
    refine ⟨hD, ?_⟩
    intro x y _
    simp
  | cons m ms ih =>
    intro b hD hstones
    obtain ⟨px, py, hc, hinp⟩ := hstones m (List.mem_cons_self _ _)
    have hD' : Dims n (cellSet b py px (-1)) := cellSet_dims hD hinp (-1)
    obtain ⟨ihD, ihcell⟩ := ih (cellSet b py px (-1)) hD'
      (fun m' hm' => hstones m' (List.mem_cons_of_mem _ hm'))
    simp only [List.foldl_cons, hc]
    refine ⟨ihD, ?_⟩
    intro x y hin
    rw [ihcell x y hin]
    by_cases h1 : ∃ m' ∈ ms, m'.coords = some (x, y)
    · rw [if_pos h1, if_pos ?_]
      obtain ⟨m', hm', hcm'⟩ := h1
      exact ⟨m', List.mem_cons_of_mem _ hm', hcm'⟩
    · rw [if_neg h1]
      by_cases h2 : x = px ∧ y = py
      · obtain ⟨rfl, rfl⟩ := h2
        rw [cellGet_cellSet_self hD hinp (-1), if_pos ⟨m, List.mem_cons_self _ _, hc⟩]
      · rw [cellGet_cellSet_other hD hinp hin h2 (-1), if_neg ?_]
        intro hcon
        obtain ⟨m', hm', hcm'⟩ := hcon
        rcases List.mem_cons.mp hm' with rfl | hm'
        · rw [hc] at hcm'
          obtain ⟨h1', h2'⟩ := Prod.mk.injEq _ _ _ _ ▸ Option.some_inj.mp hcm'
          exact h2 ⟨h1'.symm ▸ rfl, h2'.symm ▸ rfl⟩
        · exact h1 ⟨m', hm', hcm'⟩

/-! ### The chain-merging fold -/

theorem mergeFold_spec (c0 : Int) (hc0 : 0 ≤ c0) :
    ∀ (rest : List Int) (chs : List (List Move)),
      c0.toNat < chs.length →
      (∀ oc ∈ rest, 0 ≤ oc ∧ oc.toNat < chs.length) →
      c0 ∉ rest → rest.Nodup →
      (rest.foldl (fun chs oc =>
          pyListSet (pyListSet chs c0 (pyGetD chs c0 [] ++ pyGetD chs oc [])) oc [])
        chs).length = chs.length ∧
      (rest.foldl (fun chs oc =>
          pyListSet (pyListSet chs c0 (pyGetD chs c0 [] ++ pyGetD chs oc [])) oc [])
        chs).getD c0.toNat [] =
        chs.getD c0.toNat [] ++ (rest.map fun oc => chs.getD oc.toNat []).flatten ∧
      (∀ oc ∈ rest, (rest.foldl (fun chs oc =>
          pyListSet (pyListSet chs c0 (pyGetD chs c0 [] ++ pyGetD chs oc [])) oc [])
        chs).getD oc.toNat [] = []) ∧
      (∀ d : Nat, d ≠ c0.toNat → (∀ oc ∈ rest, d ≠ oc.toNat) →
        (rest.foldl (fun chs oc =>
            pyListSet (pyListSet chs c0 (pyGetD chs c0 [] ++ pyGetD chs oc [])) oc [])
          chs).getD d [] = chs.getD d []) := by
  intro rest
  induction rest with
  | nil =>
    intro chs hlen _ _ _
    refine ⟨rfl, by simp, by simp, fun d _ _ => rfl⟩
  | cons oc rest ih =>
    intro chs hlen hge hc0mem hnd
    obtain ⟨hocge, hoclt⟩ := hge oc (List.mem_cons_self _ _)
    have hocne : oc ≠ c0 := fun h => hc0mem (h ▸ List.mem_cons_self _ _)
    have hocnat : oc.toNat ≠ c0.toNat := by omega
    have hocrest : oc ∉ rest := (List.nodup_cons.mp hnd).1
    have hndrest : rest.Nodup := (List.nodup_cons.mp hnd).2
    have hstep : pyListSet (pyListSet chs c0 (pyGetD chs c0 [] ++ pyGetD chs oc [])) oc [] =
        (chs.set c0.toNat (chs.getD c0.toNat [] ++ chs.getD oc.toNat [])).set oc.toNat [] := by
      rw [pyGetD_nonneg _ _ _ hc0, pyGetD_nonneg _ _ _ hocge,
        pyListSet_nonneg _ _ _ hc0, pyListSet_nonneg _ _ _ hocge]
    set chs' := (chs.set c0.toNat (chs.getD c0.toNat [] ++ chs.getD oc.toNat [])).set oc.toNat []
      with hchs'
    have hlen' : chs'.length = chs.length := by rw [hchs']; simp
    have hlt2 : oc.toNat <
        (chs.set c0.toNat (chs.getD c0.toNat [] ++ chs.getD oc.toNat [])).length := by
      rw [List.length_set]; exact hoclt
    have hc0' : chs'.getD c0.toNat [] = chs.getD c0.toNat [] ++ chs.getD oc.toNat [] := by
      rw [hchs', getD_set_other _ _ _ _ _ hocnat, getD_set_self _ _ _ _ hlen]
    have hoc' : chs'.getD oc.toNat [] = [] := by
      rw [hchs', getD_set_self _ _ _ _ hlt2]
    have hother' : ∀ d : Nat, d ≠ c0.toNat → d ≠ oc.toNat → chs'.getD d [] = chs.getD d [] := by
      intro d hd1 hd2
      rw [hchs', getD_set_other _ _ _ _ _ (fun h => hd2 h.symm),
        getD_set_other _ _ _ _ _ (fun h => hd1 h.symm)]
    obtain ⟨ihlen, ihc0, ihtomb, ihother⟩ := ih chs' (by rw [hlen']; exact hlen)
      (fun oc' hoc'' => by
        obtain ⟨h1, h2⟩ := hge oc' (List.mem_cons_of_mem _ hoc'')
        exact ⟨h1, by rw [hlen']; exact h2⟩)
      (fun h => hc0mem (List.mem_cons_of_mem _ h)) hndrest
    rw [List.foldl_cons, hstep]
    have hmemne : ∀ oc' ∈ rest, oc'.toNat ≠ c0.toNat ∧ oc'.toNat ≠ oc.toNat := by
      intro oc' hoc''
      obtain ⟨ha, _⟩ := hge oc' (List.mem_cons_of_mem _ hoc'')
      have h1 : oc' ≠ c0 := fun h => hc0mem (h ▸ List.mem_cons_of_mem _ hoc'')
      have h2 : oc' ≠ oc := fun h => hocrest (h ▸ hoc'')
      omega
    refine ⟨by rw [ihlen, hlen'], ?_, ?_, ?_⟩
    · rw [ihc0, hc0']
      have hmapeq : rest.map (fun oc' => chs'.getD oc'.toNat []) =
          rest.map fun oc' => chs.getD oc'.toNat [] := by
        apply List.map_congr_left
        intro oc' hoc''
        obtain ⟨h1, h2⟩ := hmemne oc' hoc''
        exact hother' _ h1 h2
      rw [hmapeq, List.map_cons, List.flatten_cons, List.append_assoc]
    · intro oc' hmem
      rcases List.mem_cons.mp hmem with rfl | hmem
      · have h2 : ∀ oc'' ∈ rest, oc'.toNat ≠ oc''.toNat := by
          intro oc'' hoc''
          obtain ⟨ha, _⟩ := hge oc'' (List.mem_cons_of_mem _ hoc'')
          have : oc' ≠ oc'' := fun h => hocrest (h ▸ hoc'')
          omega
        rw [ihother _ hocnat h2, hoc']
      · exact ihtomb _ hmem
    · intro d hd1 hd2
      rw [ihother d hd1 (fun oc'' h => hd2 oc'' (List.mem_cons_of_mem _ h)),
        hother' d hd1 (hd2 oc (List.mem_cons_self _ _))]

/-! ### Specification of the placement/merge step -/

theorem getD_append_self {α : Type} (l : List α) (a d : α) : (l ++ [a]).getD l.length d = a := by
  rw [List.getD_eq_getElem?_getD, List.getElem?_append_right (le_refl _)]
  simp

theorem applyPlacement_new_eq {n : Nat} {board : List (List Int)} {chains : List (List Move)}
    {move : Move} {x y : Int} (hnb : nbChainsOf n board chains move = []) :
    applyPlacement n board chains move x y =
      { board := cellSet board y x (chains.length : Int)
        chains := chains ++ [[move]]
        this_chain := (chains.length : Int) } := by
  unfold applyPlacement
  rw [hnb]

theorem applyPlacement_merge_eq {n : Nat} {board : List (List Int)} {chains : List (List Move)}
    {move : Move} {x y : Int} {c0 : Int} {rest : List Int}
    (hnb : nbChainsOf n board chains move = c0 :: rest) :
    applyPlacement n board chains move x y =
      { board := cellSet (board.map fun line => line.map fun sq =>
          if sq ∈ c0 :: rest then c0 else sq) y x c0
        chains := pyListSet (rest.foldl (fun chs oc =>
            pyListSet (pyListSet chs c0 (pyGetD chs c0 [] ++ pyGetD chs oc [])) oc []) chains) c0
          (pyGetD (rest.foldl (fun chs oc =>
            pyListSet (pyListSet chs c0 (pyGetD chs c0 [] ++ pyGetD chs oc [])) oc []) chains)
            c0 [] ++ [move])
        this_chain := c0 } := by
  unfold applyPlacement
  rw [hnb]

theorem applyPlacement_spec {n : Nat} {board : List (List Int)} {chains : List (List Move)}
    {move : Move} {x y : Int}
    (hD : Dims n board) (hA : InvA n board chains) (hB : InvB n board chains)
    (hcoords : move.coords = some (x, y)) (hin : InBoard n x y)
    (hempty : cellGet board y x = -1) :
    PlacementFacts n board chains move x y (applyPlacement n board chains move x y) := by
  cases hnb : nbChainsOf n board chains move with
  | nil =>
    rw [applyPlacement_new_eq hnb]
    have hL : ((chains.length : Int)).toNat = chains.length := by omega
    have hBd : Dims n (cellSet board y x (chains.length : Int)) :=
      cellSet_dims hD hin _
    have hgetLast : (chains ++ [[move]]).getD chains.length [] = [move] :=
      getD_append_self chains [move] []
    refine ⟨hBd, ?_, ?_, by show (0:Int) ≤ ((chains.length : Nat) : Int); omega,
      ?_, ?_, ?_, ?_, ?_, ?_⟩
    · -- InvA
      intro c hc m hm
      simp only at hm hc ⊢
      rw [List.length_append, List.length_singleton] at hc
      by_cases hlt : c < chains.length
      · rw [getD_append_lt _ _ _ _ hlt] at hm
        obtain ⟨mx, my, hmc, hmin, hmcell⟩ := hA c hlt m hm
        have hne : ¬(mx = x ∧ my = y) := by
          rintro ⟨rfl, rfl⟩
          rw [hempty] at hmcell
          omega
        exact ⟨mx, my, hmc, hmin, by
          rw [cellGet_cellSet_other hD hin hmin hne _]; exact hmcell⟩
      · have hceq : c = chains.length := by omega
        subst hceq
        rw [hgetLast] at hm
        obtain rfl : m = move := List.mem_singleton.mp hm
        exact ⟨x, y, hcoords, hin, by rw [cellGet_cellSet_self hD hin _]⟩
    · -- InvB
      intro x' y' hin'
      simp only
      by_cases htgt : x' = x ∧ y' = y
      · obtain ⟨rfl, rfl⟩ := htgt
        right
        refine ⟨chains.length, ?_, ?_, move, ?_, hcoords⟩
        · rw [List.length_append, List.length_singleton]; omega
        · rw [cellGet_cellSet_self hD hin _]
        · rw [hgetLast]; exact List.mem_singleton.mpr rfl
      · rw [cellGet_cellSet_other hD hin hin' htgt _]
        rcases hB x' y' hin' with hcase | ⟨cN, hltN, hvalN, m', hm', hcm'⟩
        · exact Or.inl hcase
        · right
          refine ⟨cN, ?_, hvalN, m', ?_, hcm'⟩
          · rw [List.length_append, List.length_singleton]; omega
          · rw [getD_append_lt _ _ _ _ hltN]; exact hm'
    · -- tc_lt
      simp only
      rw [hL, List.length_append, List.length_singleton]; omega
    · -- cell_target
      exact cellGet_cellSet_self hD hin _
    · -- move_mem
      simp only
      rw [hL, hgetLast]
      exact List.mem_singleton.mpr rfl
    · -- head_player
      simp only [chainHeadPlayer]
      rw [pyGetD_nonneg _ _ _ (by omega : (0:Int) ≤ (chains.length : Int)), hL, hgetLast]
      rfl
    · -- empty_preserved
      intro x' y' hin' hne hemp
      simp only
      rw [cellGet_cellSet_other hD hin hin' hne _]
      exact hemp
    · -- chains_sub
      intro s d hs
      simp only at hs
      by_cases hlt : d < chains.length
      · rw [getD_append_lt _ _ _ _ hlt] at hs
        exact Or.inr ⟨d, hlt, hs⟩
      · by_cases hd : d = chains.length
        · subst hd
          rw [hgetLast] at hs
          exact Or.inl (List.mem_singleton.mp hs)
        · rw [List.getD_eq_getElem?_getD, List.getElem?_eq_none (by
            rw [List.length_append, List.length_singleton]; omega)] at hs
          exact absurd hs (List.not_mem_nil s)
  | cons c0 rest =>
    have hnd0 : (nbChainsOf n board chains move).Nodup := by
      unfold nbChainsOf; exact pySetList_nodup _
    rw [hnb] at hnd0
    have hc0rest : c0 ∉ rest := (List.nodup_cons.mp hnd0).1
    have hrestnd : rest.Nodup := (List.nodup_cons.mp hnd0).2
    have hvalid : ∀ c ∈ c0 :: rest, 0 ≤ c ∧ chainHeadPlayer chains c = move.player ∧
        c.toNat < chains.length ∧ chains.getD c.toNat [] ≠ [] ∧ ((c.toNat : Nat) : Int) = c := by
      intro c hc
      have h1 := nbChainsOf_mem (hnb ▸ hc)
      have h2 := nb_id_valid hB h1.2.2 h1.1
      exact ⟨h1.1, h1.2.1, h2.1, h2.2.1, h2.2.2⟩
    obtain ⟨hc0ge, hc0pl, hc0lt, hc0ne, hc0cast⟩ := hvalid c0 (List.mem_cons_self _ _)
    have hneg1 : (-1 : Int) ∉ c0 :: rest := by
      intro h
      have := (hvalid _ h).1
      omega
    obtain ⟨hrlen, hrc0, hrtomb, hrother⟩ := mergeFold_spec c0 hc0ge rest chains hc0lt
      (fun oc hoc => ⟨(hvalid oc (List.mem_cons_of_mem _ hoc)).1,
        (hvalid oc (List.mem_cons_of_mem _ hoc)).2.2.1⟩) hc0rest hrestnd
    rw [applyPlacement_merge_eq hnb]
    set r := rest.foldl (fun chs oc =>
        pyListSet (pyListSet chs c0 (pyGetD chs c0 [] ++ pyGetD chs oc [])) oc []) chains
      with hr
    have hq : pyListSet r c0 (pyGetD r c0 [] ++ [move]) =
        r.set c0.toNat (r.getD c0.toNat [] ++ [move]) := by
      rw [pyGetD_nonneg _ _ _ hc0ge, pyListSet_nonneg _ _ _ hc0ge]
    set q := r.set c0.toNat (r.getD c0.toNat [] ++ [move]) with hqdef
    rw [hq]
    have hqlen : q.length = chains.length := by
      rw [hqdef, List.length_set, hrlen]
    have hc0ltr : c0.toNat < r.length := by rw [hrlen]; exact hc0lt
    have hqc0 : q.getD c0.toNat [] =
        (chains.getD c0.toNat [] ++ (rest.map fun oc => chains.getD oc.toNat []).flatten)
          ++ [move] := by
      rw [hqdef, getD_set_self _ _ _ _ hc0ltr, hrc0]
    have hqoc : ∀ oc ∈ rest, q.getD oc.toNat [] = [] := by
      intro oc hoc
      have h1 : 0 ≤ oc := (hvalid oc (List.mem_cons_of_mem _ hoc)).1
      have h2 : oc ≠ c0 := fun h => hc0rest (h ▸ hoc)
      rw [hqdef, getD_set_other _ _ _ _ _ (by omega), hrtomb oc hoc]
    have hqother : ∀ d : Nat, d ≠ c0.toNat → (∀ oc ∈ rest, d ≠ oc.toNat) →
        q.getD d [] = chains.getD d [] := by
      intro d hd1 hd2
      rw [hqdef, getD_set_other _ _ _ _ _ (fun h => hd1 h.symm), hrother d hd1 hd2]
    have hDmb : Dims n (board.map fun line => line.map fun sq =>
        if sq ∈ c0 :: rest then c0 else sq) := dims_map_map hD _
    have hDB : Dims n (cellSet (board.map fun line => line.map fun sq =>
        if sq ∈ c0 :: rest then c0 else sq) y x c0) := cellSet_dims hDmb hin _
    have hcellmb : ∀ x' y' : Int, InBoard n x' y' →
        cellGet (board.map fun line => line.map fun sq =>
          if sq ∈ c0 :: rest then c0 else sq) y' x' =
        if cellGet board y' x' ∈ c0 :: rest then c0 else cellGet board y' x' := by
      intro x' y' hin'
      exact cellGet_map_map hD _ hin'
    have hcellB : ∀ x' y' : Int, InBoard n x' y' → ¬(x' = x ∧ y' = y) →
        cellGet (cellSet (board.map fun line => line.map fun sq =>
          if sq ∈ c0 :: rest then c0 else sq) y x c0) y' x' =
        if cellGet board y' x' ∈ c0 :: rest then c0 else cellGet board y' x' := by
      intro x' y' hin' hne
      rw [cellGet_cellSet_other hDmb hin hin' hne _]
      exact hcellmb x' y' hin'
    have hcellBt : cellGet (cellSet (board.map fun line => line.map fun sq =>
        if sq ∈ c0 :: rest then c0 else sq) y x c0) y x = c0 :=
      cellGet_cellSet_self hDmb hin _
    have hstone_in_q : ∀ cN : Nat, cN < chains.length → (cN : Int) ∈ c0 :: rest →
        ∀ m' ∈ chains.getD cN [], m' ∈ q.getD c0.toNat [] := by
      intro cN hltN hv m' hm'
      rw [hqc0]
      rcases List.mem_cons.mp hv with hvc0 | hvrest
      · have : cN = c0.toNat := by omega
        subst this
        exact List.mem_append_left _ (List.mem_append_left _ hm')
      · refine List.mem_append_left _ (List.mem_append_right _ ?_)
        rw [List.mem_flatten]
        refine ⟨chains.getD cN [], ?_, hm'⟩
        rw [List.mem_map]
        refine ⟨(cN : Int), hvrest, ?_⟩
        rw [Int.toNat_natCast]
    refine ⟨hDB, ?_, ?_, hc0ge, ?_, hcellBt, ?_, ?_, ?_, ?_⟩
    · -- InvA
      intro c hc m hm
      simp only at hm hc ⊢
      rw [hqlen] at hc
      by_cases hcc0 : c = c0.toNat
      · subst hcc0
        rw [hqc0] at hm
        rcases List.mem_append.mp hm with hm1 | hm2
        · rcases List.mem_append.mp hm1 with hma | hmf
          · obtain ⟨mx, my, hmc, hmin, hmcell⟩ := hA c0.toNat hc0lt m hma
            have hne : ¬(mx = x ∧ my = y) := by
              rintro ⟨rfl, rfl⟩
              rw [hempty] at hmcell
              omega
            refine ⟨mx, my, hmc, hmin, ?_⟩
            rw [hcellB mx my hmin hne, hmcell, hc0cast,
              if_pos (List.mem_cons_self _ _)]
          · rw [List.mem_flatten] at hmf
            obtain ⟨lst, hlst, hmlst⟩ := hmf
            rw [List.mem_map] at hlst
            obtain ⟨oc, hocrest', rfl⟩ := hlst
            obtain ⟨hocge, _, hoclt, _, hoccast⟩ := hvalid oc (List.mem_cons_of_mem _ hocrest')
            obtain ⟨mx, my, hmc, hmin, hmcell⟩ := hA oc.toNat hoclt m hmlst
            have hne : ¬(mx = x ∧ my = y) := by
              rintro ⟨rfl, rfl⟩
              rw [hempty] at hmcell
              omega
            refine ⟨mx, my, hmc, hmin, ?_⟩
            rw [hcellB mx my hmin hne, hmcell, hoccast,
              if_pos (List.mem_cons_of_mem _ hocrest'), hc0cast]
        · obtain rfl : m = move := List.mem_singleton.mp hm2
          exact ⟨x, y, hcoords, hin, by rw [hcellBt, hc0cast]⟩
      · have hcrest : ∀ oc ∈ rest, c ≠ oc.toNat := by
          intro oc hoc hceq
          rw [hceq, hqoc oc hoc] at hm
          exact List.not_mem_nil m hm
        rw [hqother c hcc0 hcrest] at hm
        obtain ⟨mx, my, hmc, hmin, hmcell⟩ := hA c (by omega) m hm
        have hne : ¬(mx = x ∧ my = y) := by
          rintro ⟨rfl, rfl⟩
          rw [hempty] at hmcell
          omega
        have hnotin : cellGet board my mx ∉ c0 :: rest := by
          rw [hmcell]
          intro hmem
          rcases List.mem_cons.mp hmem with h1 | h2
          · exact hcc0 (by omega)
          · obtain ⟨hocge2, _, _, _, _⟩ := hvalid _ (List.mem_cons_of_mem _ h2)
            exact hcrest _ h2 (by omega)
        refine ⟨mx, my, hmc, hmin, ?_⟩
        rw [hcellB mx my hmin hne, if_neg hnotin, hmcell]
    · -- InvB
      intro x' y' hin'
      simp only
      by_cases htgt : x' = x ∧ y' = y
      · obtain ⟨rfl, rfl⟩ := htgt
        right
        refine ⟨c0.toNat, by rw [hqlen]; exact hc0lt, by rw [hcellBt, hc0cast], move, ?_, hcoords⟩
        rw [hqc0]
        exact List.mem_append_right _ (List.mem_singleton.mpr rfl)
      · rw [hcellB x' y' hin' htgt]
        rcases hB x' y' hin' with hcase | ⟨cN, hltN, hvalN, m', hm', hcm'⟩
        · rw [hcase, if_neg hneg1]
          exact Or.inl rfl
        · rw [hvalN]
          by_cases hv : (cN : Int) ∈ c0 :: rest
          · rw [if_pos hv]
            right
            exact ⟨c0.toNat, by rw [hqlen]; exact hc0lt, hc0cast.symm, m',
              hstone_in_q cN hltN hv m' hm', hcm'⟩
          · rw [if_neg hv]
            right
            refine ⟨cN, by rw [hqlen]; exact hltN, rfl, m', ?_, hcm'⟩
            rw [hqother cN ?_ ?_]
            · exact hm'
            · intro hceq
              exact hv (by rw [hceq, hc0cast]; exact List.mem_cons_self _ _)
            · intro oc hoc hceq
              obtain ⟨hocge2, _, _, _, hoccast⟩ := hvalid oc (List.mem_cons_of_mem _ hoc)
              exact hv (by rw [hceq, hoccast]; exact List.mem_cons_of_mem _ hoc)
    · -- tc_lt
      simp only
      rw [hqlen]
      exact hc0lt
    · -- move_mem
      simp only
      rw [hqc0]
      exact List.mem_append_right _ (List.mem_singleton.mpr rfl)
    · -- head_player
      simp only [chainHeadPlayer]
      rw [pyGetD_nonneg _ _ _ hc0ge, hqc0]
      rw [headD_append _ _ _ (fun h => hc0ne (List.append_eq_nil.mp h).1)]
      rw [headD_append _ _ _ hc0ne]
      rw [chainHeadPlayer, pyGetD_nonneg _ _ _ hc0ge] at hc0pl
      exact hc0pl
    · -- empty_preserved
      intro x' y' hin' hne hemp
      simp only
      rw [hcellB x' y' hin' hne, hemp, if_neg hneg1]
    · -- chains_sub
      intro s d hs
      simp only at hs
      by_cases hcc0 : d = c0.toNat
      · subst hcc0
        rw [hqc0] at hs
        rcases List.mem_append.mp hs with hm1 | hm2
        · rcases List.mem_append.mp hm1 with hma | hmf
          · exact Or.inr ⟨c0.toNat, hc0lt, hma⟩
          · rw [List.mem_flatten] at hmf
            obtain ⟨lst, hlst, hmlst⟩ := hmf
            rw [List.mem_map] at hlst
            obtain ⟨oc, hocrest', rfl⟩ := hlst
            exact Or.inr ⟨oc.toNat,
              (hvalid oc (List.mem_cons_of_mem _ hocrest')).2.2.1, hmlst⟩
        · exact Or.inl (List.mem_singleton.mp hm2)
      · by_cases hdlt : d < chains.length
        · have hcrest : ∀ oc ∈ rest, d ≠ oc.toNat := by
            intro oc hoc hceq
            rw [hceq, hqoc oc hoc] at hs
            exact List.not_mem_nil s hs
          rw [hqother d hcc0 hcrest] at hs
          exact Or.inr ⟨d, hdlt, hs⟩
        · rw [List.getD_eq_getElem?_getD, List.getElem?_eq_none (by
            rw [hqlen]; omega)] at hs
          exact absurd hs (List.not_mem_nil s)

theorem capture_step_spec (n : Nat) (board0 : List (List Int)) (chains0 : List (List Move))
    (c : Int) (hge : 0 ≤ c) (acc : CapRes) (hF : CaptureFacts n board0 chains0 acc) :
    CaptureFacts n board0 chains0
      (if (-1) ∈ neighbourValues n acc.board (pyGetD acc.chains c []) then acc
       else
        { board := (pyGetD acc.chains c []).foldl
            (fun b om =>
              match om.coords with
              | some (ox, oy) => cellSet b oy ox (-1)
              | none => b) acc.board
          chains := pyListSet acc.chains c []
          last_capture := acc.last_capture ++ pyGetD acc.chains c [] }) := by
  by_cases hlib : (-1) ∈ neighbourValues n acc.board (pyGetD acc.chains c [])
  · rw [if_pos hlib]; exact hF
  · rw [if_neg hlib]
    have hchget : pyGetD acc.chains c [] = acc.chains.getD c.toNat [] :=
      pyGetD_nonneg _ _ _ hge
    have hsetget : pyListSet acc.chains c [] = acc.chains.set c.toNat [] :=
      pyListSet_nonneg _ _ _ hge
    by_cases hlen : c.toNat < acc.chains.length
    · have hstones : ∀ m ∈ pyGetD acc.chains c [],
          ∃ px py : Int, m.coords = some (px, py) ∧ InBoard n px py := by
        intro m hm
        rw [hchget] at hm
        obtain ⟨px, py, h1, h2, _⟩ := hF.invA c.toNat hlen m hm
        exact ⟨px, py, h1, h2⟩
      obtain ⟨hDc, hcellc⟩ := clear_fold_spec n (pyGetD acc.chains c []) acc.board hF.dims hstones
      have hclr_val : ∀ x' y' : Int, InBoard n x' y' →
          (∃ m ∈ pyGetD acc.chains c [], m.coords = some (x', y')) →
          cellGet acc.board y' x' = ((c.toNat : Nat) : Int) := by
        intro x' y' hin' ⟨m', hm', hcm'⟩
        rw [hchget] at hm'
        obtain ⟨px, py, h1, h2, h3⟩ := hF.invA c.toNat hlen m' hm'
        rw [h1] at hcm'
        obtain ⟨he1, he2⟩ := Prod.mk.injEq _ _ _ _ ▸ Option.some_inj.mp hcm'
        rw [← he1, ← he2]
        exact h3
      refine ⟨hDc, ?_, ?_, ?_, ?_, ?_, ?_⟩
      · -- InvA
        intro d hd m hm
        simp only at hd hm ⊢
        rw [hsetget] at hd hm
        rw [List.length_set] at hd
        by_cases hdc : d = c.toNat
        · subst hdc
          rw [getD_set_self _ _ _ _ hlen] at hm
          exact absurd hm (List.not_mem_nil m)
        · rw [getD_set_other _ _ _ _ _ (fun h => hdc h.symm)] at hm
          obtain ⟨mx, my, hmc, hmin, hmcell⟩ := hF.invA d hd m hm
          refine ⟨mx, my, hmc, hmin, ?_⟩
          rw [hcellc mx my hmin, if_neg ?_]
          · exact hmcell
          · intro hclr
            have := hclr_val mx my hmin hclr
            rw [hmcell] at this
            omega
      · -- InvB
        intro x' y' hin'
        simp only
        rw [hcellc x' y' hin']
        by_cases hclr : ∃ m ∈ pyGetD acc.chains c [], m.coords = some (x', y')
        · rw [if_pos hclr]
          exact Or.inl rfl
        · rw [if_neg hclr]
          rcases hF.invB x' y' hin' with hcase | ⟨cN, hltN, hval, m', hm', hcm'⟩
          · exact Or.inl hcase
          · right
            have hdc : cN ≠ c.toNat := by
              intro h
              subst h
              exact hclr ⟨m', by rw [hchget]; exact hm', hcm'⟩
            refine ⟨cN, ?_, hval, m', ?_, hcm'⟩
            · rw [hsetget, List.length_set]; exact hltN
            · rw [hsetget, getD_set_other _ _ _ _ _ (fun h => hdc h.symm)]
              exact hm'
      · -- len_eq
        simp only
        rw [hsetget, List.length_set]
        exact hF.len_eq
      · -- chains_cases
        intro d
        simp only
        rw [hsetget]
        by_cases hdc : d = c.toNat
        · subst hdc
          rw [getD_set_self _ _ _ _ hlen]
          exact Or.inr rfl
        · rw [getD_set_other _ _ _ _ _ (fun h => hdc h.symm)]
          exact hF.chains_cases d
      · -- capture_origin
        intro s hs
        simp only at hs
        rcases List.mem_append.mp hs with hs1 | hs2
        · exact hF.capture_origin s hs1
        · rw [hchget] at hs2
          rcases hF.chains_cases c.toNat with hc1 | hc2
          · rw [hc1] at hs2
            exact ⟨c.toNat, by rw [← hF.len_eq]; exact hlen, hs2⟩
          · rw [hc2] at hs2
            exact absurd hs2 (List.not_mem_nil s)
      · -- empty_preserved
        intro x' y' hin' hemp
        simp only
        rw [hcellc x' y' hin']
        by_cases hclr : ∃ m ∈ pyGetD acc.chains c [], m.coords = some (x', y')
        · rw [if_pos hclr]
        · rw [if_neg hclr]
          exact hF.empty_preserved x' y' hin' hemp
    · -- out-of-range id: every mutation is a no-op
      have hchnil : pyGetD acc.chains c [] = [] := by
        rw [hchget, List.getD_eq_getElem?_getD, List.getElem?_eq_none (by omega)]
        rfl
      have hsetnil : pyListSet acc.chains c [] = acc.chains := by
        rw [hsetget]
        exact List.set_eq_of_length_le (by omega)
      refine ⟨?_, ?_, ?_, ?_, ?_, ?_, ?_⟩ <;> simp only [hchnil, hsetnil, List.foldl_nil,
        List.append_nil]
      · exact hF.dims
      · exact hF.invA
      · exact hF.invB
      · exact hF.len_eq
      · exact hF.chains_cases
      · exact hF.capture_origin
      · exact hF.empty_preserved

theorem capture_fold_spec (n : Nat) (board0 : List (List Int)) (chains0 : List (List Move)) :
    ∀ (l : List Int) (acc : CapRes),
      (∀ c ∈ l, 0 ≤ c) →
      CaptureFacts n board0 chains0 acc →
      CaptureFacts n board0 chains0 (l.foldl (fun acc c =>
        let ch := pyGetD acc.chains c []
        if (-1) ∈ neighbourValues n acc.board ch then acc
        else
          { board := ch.foldl
              (fun b om =>
                match om.coords with
                | some (ox, oy) => cellSet b oy ox (-1)
                | none => b) acc.board
            chains := pyListSet acc.chains c []
            last_capture := acc.last_capture ++ ch }) acc) := by
  intro l
  induction l with
  | nil => intro acc _ hF; exact hF
  | cons c l ih =>
    intro acc hge hF
    rw [List.foldl_cons]
    exact ih _ (fun c' hc' => hge c' (List.mem_cons_of_mem _ hc'))
      (capture_step_spec n board0 chains0 c (hge c (List.mem_cons_self _ _)) acc hF)

theorem applyCaptures_spec {n : Nat} {board : List (List Int)} {chains : List (List Move)}
    {move : Move} (hD : Dims n board) (hA : InvA n board chains) (hB : InvB n board chains) :
    CaptureFacts n board chains (applyCaptures n board chains move) := by
  unfold applyCaptures
  apply capture_fold_spec
  · intro c hc
    exact (oppChainsOf_mem hc).1
  · exact ⟨hD, hA, hB, rfl, fun d => Or.inl rfl,
      fun s hs => absurd hs (List.not_mem_nil s), fun x y _ h => h⟩

/-! ### The invariant is maintained by play -/

theorem boundsOk_some {n : Nat} {move : Move} {x y : Int} (h : move.coords = some (x, y))
    (hb : boundsOk n move = true) : InBoard n x y := by
  unfold boundsOk at hb
  rw [h] at hb
  simp only [Bool.and_eq_true, decide_eq_true_eq] at hb
  exact ⟨hb.1.1.1, hb.1.1.2, hb.1.2, hb.2⟩

theorem validate_success_inv {st : ChainState} {move : Move} {ig : Bool}
    {st' : ChainState} (hI : StInv st) (hb : boundsOk st.board_size move = true)
    (h : validate_move_and_update_chains st move ig = (st', none)) : StInv st' := by
  obtain ⟨hD, hA, hB⟩ := hI
  unfold validate_move_and_update_chains at h
  cases hc : move.coords with
  | none =>
    rw [hc] at h
    simp only [] at h
    injection h with h1 h2
    subst h1
    exact ⟨hD, hA, hB⟩
  | some p =>
    obtain ⟨x, y⟩ := p
    rw [hc] at h
    simp only [] at h
    have hin : InBoard st.board_size x y := boundsOk_some hc hb
    split at h
    · exact absurd (Prod.mk.injEq _ _ _ _ ▸ h).2 (by simp)
    · rename_i hocc
      have hempty : cellGet st.board y x = -1 := by
        by_contra hcon
        exact hocc hcon
      have hP := applyPlacement_spec hD hA hB hc hin hempty
      have hC := @applyCaptures_spec _ _ _ move hP.dims hP.invA hP.invB
      split at h
      · exact absurd (Prod.mk.injEq _ _ _ _ ▸ h).2 (by simp)
      · split at h
        · injection h with h1 h2
          subst h1
          exact ⟨hC.dims, hC.invA, hC.invB⟩
        · exact absurd (Prod.mk.injEq _ _ _ _ ▸ h).2 (by simp)

theorem play_state_inv {st : ChainState} {move : Move} {ig : Bool} {st' : ChainState}
    (hI : StInv st) (h : play_state st move ig = (st', none)) : StInv st' := by
  unfold play_state at h
  split at h
  · exact absurd (Prod.mk.injEq _ _ _ _ ▸ h).2 (by simp)
  · rename_i hb
    rw [Bool.not_eq_true', Bool.not_eq_false] at hb
    exact validate_success_inv hI hb h

theorem emptyChainState_dims (n : Nat) :
    Dims n (List.replicate n (List.replicate n (-1 : Int))) := by
  refine ⟨by simp, ?_⟩
  intro row hrow
  rw [List.eq_of_mem_replicate hrow]
  simp

theorem emptyChainState_inv (n : Nat) : StInv (emptyChainState n) := by
  refine ⟨emptyChainState_dims n, ?_, ?_⟩
  · intro c hc m hm
    simp [emptyChainState] at hc
  · intro x y hin
    left
    have hD := emptyChainState_dims n
    show cellGet (List.replicate n (List.replicate n (-1 : Int))) y x = -1
    rw [cellGet_expand hD hin]
    obtain ⟨hx, hy⟩ := toNat_lt_of_inboard hin
    have hx' : x.toNat < n := hx
    have hy' : y.toNat < n := hy
    rw [getD_replicate _ _ _ _ hy', getD_replicate _ _ _ _ hx']

theorem runMoves_fold_inv :
    ∀ (ms : List (Move × Bool)) (acc : ChainState × Option IllegalMove),
      (acc.2 = none → StInv acc.1) →
      ((ms.foldl (fun acc mb =>
          match acc.2 with
          | some _ => acc
          | none => play_state acc.1 mb.1 mb.2) acc).2 = none →
        StInv (ms.foldl (fun acc mb =>
          match acc.2 with
          | some _ => acc
          | none => play_state acc.1 mb.1 mb.2) acc).1) := by
  intro ms
  induction ms with
  | nil => intro acc h; exact h
  | cons mb ms ih =>
    intro acc hacc
    rw [List.foldl_cons]
    refine ih _ ?_
    intro h2
    cases hacc2 : acc.2 with
    | some e =>
      simp only [hacc2] at h2
      exact absurd h2 (by simp)
    | none =>
      simp only [hacc2] at h2 ⊢
      have hI := hacc hacc2
      cases hps : play_state acc.1 mb.1 mb.2 with
      | mk st' e =>
        rw [hps] at h2
        have he : e = none := h2
        subst he
        exact play_state_inv hI hps

/-- After any successfully committed sequence of `play` calls, the state
satisfies the occupancy invariant. -/
theorem runMoves_inv (n : Nat) (ms : List (Move × Bool)) (h : (runMoves n ms).2 = none) :
    StInv (runMoves n ms).1 := by
  unfold runMoves at h ⊢
  exact runMoves_fold_inv ms (emptyChainState n, none) (fun _ => emptyChainState_inv n) h

/-! ### Auxiliary facts about play -/

theorem validate_board_size (st : ChainState) (move : Move) (ig : Bool) :
    (validate_move_and_update_chains st move ig).1.board_size = st.board_size := by
  unfold validate_move_and_update_chains
  cases hc : move.coords with
  | none => rfl
  | some p =>
    obtain ⟨x, y⟩ := p
    simp only []
    split
    · rfl
    · split
      · rfl
      · split <;> rfl

theorem play_state_board_size (st : ChainState) (move : Move) (ig : Bool) :
    (play_state st move ig).1.board_size = st.board_size := by
  unfold play_state
  split
  · rfl
  · exact validate_board_size st move ig

theorem runMoves_fold_board_size :
    ∀ (ms : List (Move × Bool)) (acc : ChainState × Option IllegalMove),
      (ms.foldl (fun acc mb =>
          match acc.2 with
          | some _ => acc
          | none => play_state acc.1 mb.1 mb.2) acc).1.board_size = acc.1.board_size := by
  intro ms
  induction ms with
  | nil => intro acc; rfl
  | cons mb ms ih =>
    intro acc
    rw [List.foldl_cons]
    rw [ih]
    cases hacc2 : acc.2 with
    | some e => simp only [hacc2]
    | none =>
      simp only [hacc2]
      exact play_state_board_size acc.1 mb.1 mb.2

theorem runMoves_board_size (n : Nat) (ms : List (Move × Bool)) :
    (runMoves n ms).1.board_size = n := by
  unfold runMoves
  rw [runMoves_fold_board_size]
  rfl

/-! ### Claim C1 -/

set_option maxRecDepth 1000000 in
/-- C1: the claim says the committed state (board grid, chain list, prisoner
list and `last_capture`) is unchanged after any `IllegalMove`.  The code
instead mutates first and raises after: on a 2×2 board with Black (0,1) and
(1,0) committed, White (0,0) raises Suicide, yet the failed call leaves the
White stone's new chain on the board and in the chain list — the spec's §9
"mutate-then-fail" note names exactly this bug in the source. -/
theorem c1_suicide_mutates_state :
    (validate_move_and_update_chains (runMoves 2 suicideDemo).1 (mW 0 0) false).2 =
      some IllegalMove.suicide ∧
    (runMoves 2 suicideDemo).2 = none ∧
    cellGet (runMoves 2 suicideDemo).1.board 0 0 = -1 ∧
    cellGet (validate_move_and_update_chains
      (runMoves 2 suicideDemo).1 (mW 0 0) false).1.board 0 0 = 2 ∧
    (validate_move_and_update_chains (runMoves 2 suicideDemo).1 (mW 0 0) false).1.board ≠
      (runMoves 2 suicideDemo).1.board ∧
    (validate_move_and_update_chains (runMoves 2 suicideDemo).1 (mW 0 0) false).1.chains ≠
      (runMoves 2 suicideDemo).1.chains := by
  refine ⟨by decide, by decide, by decide, by decide, by decide, by decide⟩

/-! ### Claim C4 -/

/-- C4: after every successfully committed sequence of moves, a cell holds
chain id `c` iff chain `c` is non-tombstoned and has a stone there, and no
two chains claim the same cell. -/
theorem c4_occupancy_invariant (n : Nat) (ms : List (Move × Bool))
    (h : (runMoves n ms).2 = none) :
    (∀ x y : Int, InBoard n x y → ∀ c : Nat,
      (cellGet (runMoves n ms).1.board y x = (c : Int) ↔
        ((runMoves n ms).1.chains.getD c [] ≠ [] ∧
          ∃ m ∈ (runMoves n ms).1.chains.getD c [], m.coords = some (x, y)))) ∧
    (∀ c c' : Nat, ∀ x y : Int,
      (∃ m ∈ (runMoves n ms).1.chains.getD c [], m.coords = some (x, y)) →
      (∃ m' ∈ (runMoves n ms).1.chains.getD c' [], m'.coords = some (x, y)) →
      c = c') := by
  obtain ⟨hD, hA, hB⟩ := runMoves_inv n ms h
  rw [runMoves_board_size n ms] at hD hA hB
  have hlen_of_mem : ∀ (c : Nat) (m : Move),
      m ∈ (runMoves n ms).1.chains.getD c [] → c < (runMoves n ms).1.chains.length := by
    intro c m hm
    by_contra hcon
    rw [List.getD_eq_getElem?_getD, List.getElem?_eq_none (by omega)] at hm
    exact List.not_mem_nil m hm
  have hcellat : ∀ (c : Nat) (m : Move) (x y : Int),
      m ∈ (runMoves n ms).1.chains.getD c [] → m.coords = some (x, y) →
      cellGet (runMoves n ms).1.board y x = (c : Int) := by
    intro c m x y hm hcm
    obtain ⟨mx, my, hmc, hmin, hmcell⟩ := hA c (hlen_of_mem c m hm) m hm
    rw [hcm] at hmc
    obtain ⟨he1, he2⟩ := Prod.mk.injEq _ _ _ _ ▸ Option.some_inj.mp hmc
    rw [he1, he2]
    exact hmcell
  constructor
  · intro x y hin c
    constructor
    · intro hcell
      rcases hB x y hin with hcase | ⟨cN, hlt, hval, m, hm, hcm⟩
      · rw [hcase] at hcell
        omega
      · rw [hval] at hcell
        have hceq : cN = c := by omega
        subst hceq
        exact ⟨List.ne_nil_of_mem hm, m, hm, hcm⟩
    · rintro ⟨hne, m, hm, hcm⟩
      exact hcellat c m x y hm hcm
  · rintro c c' x y ⟨m, hm, hcm⟩ ⟨m', hm', hcm'⟩
    have h1 := hcellat c m x y hm hcm
    have h2 := hcellat c' m' x y hm' hcm'
    rw [h1] at h2
    omega

set_option maxRecDepth 1000000 in
/-- Witness for C4 at a concrete input: the capture position of §8.3. -/
theorem c4_occupancy_invariant_witness :
    cellGet (runMoves 5 captureDemo).1.board 3 2 = ((4 : Nat) : Int) ↔
      ((runMoves 5 captureDemo).1.chains.getD 4 [] ≠ [] ∧
        ∃ m ∈ (runMoves 5 captureDemo).1.chains.getD 4 [], m.coords = some (2, 3)) :=
  (c4_occupancy_invariant 5 captureDemo (by decide)).1 2 3
    (by refine ⟨by decide, by decide, by decide, by decide⟩) 4

/-! ### Claim C5 -/

set_option maxRecDepth 1000000 in
/-- C5 counterexample: in the `mergeDemo` position White (2,1) has friendly
neighbour chains with ids 1 and 8; CPython's set iterates them as `[8, 1]`,
so the code's merge target `nb_chains[0]` is 8, not the lowest id 1: the
absorbed cells are reassigned to 8 and chain 1 — the lowest id — is the one
tombstoned, contradicting the claim. -/
theorem c5_counterexample :
    nbChainsOf 5 (runMoves 5 (mergeDemo.take 9)).1.board
      (runMoves 5 (mergeDemo.take 9)).1.chains (mW 2 1) = [8, 1] ∧
    (runMoves 5 mergeDemo).2 = none ∧
    cellGet (runMoves 5 mergeDemo).1.board 0 2 = 8 ∧
    pyGetD (runMoves 5 mergeDemo).1.chains 1 [] = [] ∧
    pyGetD (runMoves 5 mergeDemo).1.chains 8 [] = [mW 2 2, mW 2 0, mW 2 1] ∧
    ¬ cellGet (runMoves 5 mergeDemo).1.board 0 2 = 1 := by
  refine ⟨by decide, by decide, by decide, by decide, by decide, by decide⟩

/-- C5 amended: the merge target is `nb_chains[0]`, the first chain id in
the Python set's iteration order over the friendly neighbour chains (the
lowest id only when that order is ascending, e.g. when all ids are below 8);
every cell of the other listed chains is reassigned to it, those chains are
tombstoned, and the new stone is appended to the target chain. -/
theorem c5_amended_merge {n : Nat} {board : List (List Int)} {chains : List (List Move)}
    {move : Move} {x y : Int} {c0 : Int} {rest : List Int}
    (hD : Dims n board) (hA : InvA n board chains) (hB : InvB n board chains)
    (hin : InBoard n x y) (hempty : cellGet board y x = -1)
    (hnb : nbChainsOf n board chains move = c0 :: rest) :
    (applyPlacement n board chains move x y).this_chain = c0 ∧
    (applyPlacement n board chains move x y).chains.getD c0.toNat [] =
      (chains.getD c0.toNat [] ++ (rest.map fun oc => chains.getD oc.toNat []).flatten)
        ++ [move] ∧
    (∀ oc ∈ rest, (applyPlacement n board chains move x y).chains.getD oc.toNat [] = []) ∧
    (∀ x' y' : Int, InBoard n x' y' → ¬(x' = x ∧ y' = y) →
      cellGet (applyPlacement n board chains move x y).board y' x' =
        (if cellGet board y' x' ∈ c0 :: rest then c0 else cellGet board y' x')) ∧
    cellGet (applyPlacement n board chains move x y).board y x = c0 := by
  have hnd0 : (nbChainsOf n board chains move).Nodup := by
    unfold nbChainsOf; exact pySetList_nodup _
  rw [hnb] at hnd0
  have hc0rest : c0 ∉ rest := (List.nodup_cons.mp hnd0).1
  have hrestnd : rest.Nodup := (List.nodup_cons.mp hnd0).2
  have hvalid : ∀ c ∈ c0 :: rest, 0 ≤ c ∧ c.toNat < chains.length := by
    intro c hc
    have h1 := nbChainsOf_mem (hnb ▸ hc)
    have h2 := nb_id_valid hB h1.2.2 h1.1
    exact ⟨h1.1, h2.1⟩
  obtain ⟨hc0ge, hc0lt⟩ := hvalid c0 (List.mem_cons_self _ _)
  obtain ⟨hrlen, hrc0, hrtomb, hrother⟩ := mergeFold_spec c0 hc0ge rest chains hc0lt
    (fun oc hoc => hvalid oc (List.mem_cons_of_mem _ hoc)) hc0rest hrestnd
  rw [applyPlacement_merge_eq hnb]
  set r := rest.foldl (fun chs oc =>
      pyListSet (pyListSet chs c0 (pyGetD chs c0 [] ++ pyGetD chs oc [])) oc []) chains
    with hr
  have hq : pyListSet r c0 (pyGetD r c0 [] ++ [move]) =
      r.set c0.toNat (r.getD c0.toNat [] ++ [move]) := by
    rw [pyGetD_nonneg _ _ _ hc0ge, pyListSet_nonneg _ _ _ hc0ge]
  rw [hq]
  have hc0ltr : c0.toNat < r.length := by rw [hrlen]; exact hc0lt
  have hDmb : Dims n (board.map fun line => line.map fun sq =>
      if sq ∈ c0 :: rest then c0 else sq) := dims_map_map hD _
  refine ⟨rfl, ?_, ?_, ?_, ?_⟩
  · show (r.set c0.toNat (r.getD c0.toNat [] ++ [move])).getD c0.toNat [] = _
    rw [getD_set_self _ _ _ _ hc0ltr, hrc0]
  · intro oc hoc
    show (r.set c0.toNat (r.getD c0.toNat [] ++ [move])).getD oc.toNat [] = []
    have h1 : 0 ≤ oc := (hvalid oc (List.mem_cons_of_mem _ hoc)).1
    have h2 : oc ≠ c0 := fun h => hc0rest (h ▸ hoc)
    rw [getD_set_other _ _ _ _ _ (by omega), hrtomb oc hoc]
  · intro x' y' hin' hne
    show cellGet (cellSet (board.map fun line => line.map fun sq =>
        if sq ∈ c0 :: rest then c0 else sq) y x c0) y' x' = _
    rw [cellGet_cellSet_other hDmb hin hin' hne _]
    exact cellGet_map_map hD _ hin'
  · exact cellGet_cellSet_self hDmb hin _

set_option maxRecDepth 1000000 in
/-- Witness for the amended C5: Black (1,0) on a 3×3 board connecting the
chains at (0,0) (id 0) and (2,0) (id 1): the target is chain 0, chain 1 is
tombstoned, and cell (0,0) keeps id 0. -/
theorem c5_amended_merge_witness :
    (applyPlacement 3 (runMoves 3 pairDemo).1.board (runMoves 3 pairDemo).1.chains
      (mB 1 0) 1 0).this_chain = 0 ∧
    (applyPlacement 3 (runMoves 3 pairDemo).1.board (runMoves 3 pairDemo).1.chains
      (mB 1 0) 1 0).chains.getD 0 [] = [mB 0 0, mB 2 0, mB 1 0] ∧
    (applyPlacement 3 (runMoves 3 pairDemo).1.board (runMoves 3 pairDemo).1.chains
      (mB 1 0) 1 0).chains.getD 1 [] = [] ∧
    cellGet (applyPlacement 3 (runMoves 3 pairDemo).1.board (runMoves 3 pairDemo).1.chains
      (mB 1 0) 1 0).board 0 2 = 0 := by
  have hI := runMoves_inv 3 pairDemo (by decide)
  have hbs := runMoves_board_size 3 pairDemo
  obtain ⟨hD, hA, hB⟩ := hI
  rw [hbs] at hD hA hB
  have hall := @c5_amended_merge 3 (runMoves 3 pairDemo).1.board (runMoves 3 pairDemo).1.chains
    (mB 1 0) 1 0 0 [1]
    hD hA hB (by refine ⟨by decide, by decide, by decide, by decide⟩) (by decide) (by decide)
  refine ⟨hall.1, ?_, ?_, ?_⟩
  · exact hall.2.1.trans (by decide)
  · exact hall.2.2.1 1 (by decide)
  · exact (hall.2.2.2.1 2 0 (by refine ⟨by decide, by decide, by decide, by decide⟩)
      (by decide)).trans (by decide)

/-! ### Claim C6 -/

set_option maxRecDepth 1000000 in
/-- C6 counterexample: in the §8.3 capture position the captured stone is
White, and `prisoner_count` tallies prisoners by the captured stone's own
colour, so the entry for Black is 0, not 1 as the claim states. -/
theorem c6_counterexample :
    (runMoves 5 captureDemo).2 = none ∧
    cellGet (runMoves 5 captureDemo).1.board 2 2 = -1 ∧
    prisoner_count (runMoves 5 captureDemo).1 Player.B = 0 ∧
    ¬ prisoner_count (runMoves 5 captureDemo).1 Player.B = 1 := by
  refine ⟨by decide, by decide, by decide, by decide⟩

set_option maxRecDepth 1000000 in
/-- C6 amended: the White stone is captured — cell (2,2) becomes empty, the
prisoner list holds exactly the White stone, and the tally entry that counts
White-coloured prisoners (Black's capture) is 1 while Black-coloured
prisoners number 0. -/
theorem c6_amended_capture :
    (runMoves 5 captureDemo).2 = none ∧
    cellGet (runMoves 5 captureDemo).1.board 2 2 = -1 ∧
    (runMoves 5 captureDemo).1.prisoners = [mW 2 2] ∧
    prisoner_count (runMoves 5 captureDemo).1 Player.W = 1 ∧
    prisoner_count (runMoves 5 captureDemo).1 Player.B = 0 := by
  refine ⟨by decide, by decide, by decide, by decide, by decide⟩

/-- C9: for every board size and handicap count 2–9, the placed stones are
exactly the first N candidates of the spec's §4.4 list, and on 19×19 the
result matches the canonical star-point table for every count from 2 to 9. -/
theorem c9_handicap_stones :
    (∀ (board_size n_handicaps : Nat), 2 ≤ n_handicaps → n_handicaps ≤ 9 →
      place_handicap_stones board_size n_handicaps =
        (handicapSpecCandidates board_size n_handicaps).take n_handicaps) ∧
    place_handicap_stones 19 2 = [(15, 15), (3, 3)] ∧
    place_handicap_stones 19 3 = [(15, 15), (3, 3), (15, 3)] ∧
    place_handicap_stones 19 4 = [(15, 15), (3, 3), (15, 3), (3, 15)] ∧
    place_handicap_stones 19 5 = [(15, 15), (3, 3), (15, 3), (3, 15), (9, 9)] ∧
    place_handicap_stones 19 6 = [(15, 15), (3, 3), (15, 3), (3, 15), (3, 9), (15, 9)] ∧
    place_handicap_stones 19 7 = [(15, 15), (3, 3), (15, 3), (3, 15), (9, 9), (3, 9), (15, 9)] ∧
    place_handicap_stones 19 8 =
      [(15, 15), (3, 3), (15, 3), (3, 15), (3, 9), (15, 9), (9, 3), (9, 15)] ∧
    place_handicap_stones 19 9 =
      [(15, 15), (3, 3), (15, 3), (3, 15), (9, 9), (3, 9), (15, 9), (9, 3), (9, 15)] := by
  refine ⟨?_, by decide, by decide, by decide, by decide, by decide, by decide, by decide,
    by decide⟩
  intro board_size n_handicaps _ _
  unfold place_handicap_stones handicapSpecCandidates handicapNear
  by_cases h13 : 13 ≤ board_size
  · have h13' : ¬ board_size < 13 := by omega
    simp only [if_pos h13, if_neg h13']
    by_cases hodd : n_handicaps % 2 == 1
    · simp [hodd]
    · simp [hodd]
  · have h13' : board_size < 13 := by omega
    simp only [if_neg h13, if_pos h13']
    by_cases hodd : n_handicaps % 2 == 1
    · simp [hodd]
    · simp [hodd]

/-- Witness for C9 at a concrete input. -/
theorem c9_handicap_stones_witness :
    place_handicap_stones 19 5 = (handicapSpecCandidates 19 5).take 5 :=
  c9_handicap_stones.1 19 5 (by decide) (by decide)

/-- C10: a handicap count of 1 is neither rejected nor a no-op: exactly one
placement is produced, at `(far, far)`. -/
theorem c10_handicap_one (board_size : Nat) :
    place_handicap_stones board_size 1 =
      [((board_size : Int) - 1 - handicapNear board_size,
        (board_size : Int) - 1 - handicapNear board_size)] := by
  unfold place_handicap_stones
  simp

theorem neg_one_mem_of_liberty {n : Nat} {board : List (List Int)} {moves : List Move}
    {p : Int × Int} (h : p ∈ libertyCoords n board moves) :
    (-1) ∈ neighbourValues n board moves := by
  unfold libertyCoords at h
  rw [List.mem_dedup] at h
  obtain ⟨m, hm, hv⟩ := List.mem_flatMap.mp h
  unfold neighbourValues
  rw [List.mem_flatMap]
  refine ⟨m, hm, ?_⟩
  cases hc : m.coords with
  | none => rw [hc] at hv; simp at hv
  | some q =>
    obtain ⟨mx, my⟩ := q
    rw [hc] at hv
    obtain ⟨dydx, hd, hval⟩ := List.mem_filterMap.mp hv
    by_cases hb : (0 ≤ mx + dydx.2 ∧ mx + dydx.2 < (n : Int) ∧
        0 ≤ my + dydx.1 ∧ my + dydx.1 < (n : Int)) ∧
        cellGet board (my + dydx.1) (mx + dydx.2) = -1
    · rw [List.mem_filterMap]
      refine ⟨dydx, hd, ?_⟩
      rw [if_pos hb.1, hb.2]
    · rw [if_neg hb] at hval
      exact Option.noConfusion hval

theorem length_one_eq_singleton {α : Type} {l : List α} {d : α} (h : l.length = 1) :
    l = [l.headD d] := by
  cases l with
  | nil => simp at h
  | cons a t =>
    cases t with
    | nil => rfl
    | cons b t' => simp at h

/-- A `Ko` error can only be raised when the previous `last_capture` was a
single stone equal (as player + coordinates) to the move being played. -/
theorem validate_ko_requires {st : ChainState} {m : Move} {ig : Bool}
    (h : (validate_move_and_update_chains st m ig).2 = some IllegalMove.ko) :
    st.last_capture = [m] := by
  unfold validate_move_and_update_chains at h
  cases hc : m.coords with
  | none => rw [hc] at h; exact Option.noConfusion h
  | some p =>
    obtain ⟨x, y⟩ := p
    rw [hc] at h
    simp only [] at h
    split at h
    · simp at h
    · split at h
      · rename_i hcond
        simp only [Bool.and_eq_true, beq_iff_eq, Nat.beq_eq_true_eq] at hcond
        obtain ⟨⟨⟨hlen, hhead⟩, _⟩, _⟩ := hcond
        have := length_one_eq_singleton (d := mdefault) hlen
        rw [this, hhead]
      · split at h
        · exact Option.noConfusion h
        · simp at h

/-- When the ko trigger is absent, `ignore_ko` does not affect the result. -/
theorem validate_ignore_ko_eq {st : ChainState} {m : Move}
    (hks : st.last_capture ≠ [m]) (ig ig' : Bool) :
    validate_move_and_update_chains st m ig = validate_move_and_update_chains st m ig' := by
  have hb : ((st.last_capture.length == 1) && (st.last_capture.headD mdefault == m)) = false := by
    rcases Bool.eq_false_or_eq_true ((st.last_capture.length == 1) &&
        (st.last_capture.headD mdefault == m)) with ht | hf
    case inr => exact hf
    case inl =>
      exfalso
      simp only [Bool.and_eq_true, beq_iff_eq, Nat.beq_eq_true_eq] at ht
      exact hks ((length_one_eq_singleton (d := mdefault) ht.1).trans (by rw [ht.2]))
  unfold validate_move_and_update_chains
  rw [hb]
  simp only [Bool.false_and]

/-- Every stone captured by a successfully committed move either is that
move itself or was sitting on a non-empty cell of the pre-move board. -/
theorem play_capture_origin {st st1 : ChainState} {mv : Move} {ig : Bool}
    (hI : StInv st) (h : play_state st mv ig = (st1, none)) :
    ∀ s ∈ st1.last_capture, s = mv ∨ ∃ sx sy : Int, s.coords = some (sx, sy) ∧
      InBoard st.board_size sx sy ∧ cellGet st.board sy sx ≠ -1 := by
  obtain ⟨hD, hA, hB⟩ := hI
  unfold play_state at h
  split at h
  · exact absurd (Prod.mk.injEq _ _ _ _ ▸ h).2 (by simp)
  · rename_i hb
    rw [Bool.not_eq_true', Bool.not_eq_false] at hb
    unfold validate_move_and_update_chains at h
    cases hc : mv.coords with
    | none =>
      rw [hc] at h
      simp only [] at h
      injection h with h1 h2
      rw [← h1]
      intro s hs
      exact absurd hs (List.not_mem_nil s)
    | some p =>
      obtain ⟨x, y⟩ := p
      rw [hc] at h
      simp only [] at h
      have hin : InBoard st.board_size x y := boundsOk_some hc hb
      split at h
      · exact absurd (Prod.mk.injEq _ _ _ _ ▸ h).2 (by simp)
      · rename_i hocc
        have hempty : cellGet st.board y x = -1 := by
          by_contra hcon
          exact hocc hcon
        have hP := applyPlacement_spec hD hA hB hc hin hempty
        have hC := @applyCaptures_spec _ _ _ mv hP.dims hP.invA hP.invB
        split at h
        · exact absurd (Prod.mk.injEq _ _ _ _ ▸ h).2 (by simp)
        · split at h
          · injection h with h1 h2
            rw [← h1]
            intro s hs
            simp only at hs
            obtain ⟨c, hcl, hsc⟩ := hC.capture_origin s hs
            rcases hP.chains_sub s c hsc with hsmv | ⟨dc, hdc, hsd⟩
            · exact Or.inl hsmv
            · right
              obtain ⟨sx, sy, hscoords, hsin, hscell⟩ := hA dc hdc s hsd
              exact ⟨sx, sy, hscoords, hsin, by rw [hscell]; omega⟩
          · exact absurd (Prod.mk.injEq _ _ _ _ ▸ h).2 (by simp)

/-- After any committed move played elsewhere, the state cannot trigger the
ko test for a move at a point that was empty before. -/
theorem no_recapture_trigger {st st1 : ChainState} {mv m2 : Move} {ig1 : Bool} {px py : Int}
    (hI : StInv st) (hm2 : m2.coords = some (px, py)) (hemp : cellGet st.board py px = -1)
    (hne : mv.coords ≠ some (px, py)) (hplay : play_state st mv ig1 = (st1, none)) :
    st1.last_capture ≠ [m2] := by
  intro hcon
  have hmem : m2 ∈ st1.last_capture := by rw [hcon]; exact List.mem_singleton.mpr rfl
  rcases play_capture_origin hI hplay m2 hmem with hcase | ⟨sx, sy, hscoords, _, hscell⟩
  · rw [← hcase] at hne
    exact hne hm2
  · rw [hm2] at hscoords
    obtain ⟨he1, he2⟩ := Prod.mk.injEq _ _ _ _ ▸ Option.some_inj.mp hscoords
    rw [← he1, ← he2] at hscell
    exact hscell hemp

/-- C2: (1) when the previous move captured exactly the stone `move` (equal
as player + point to the move now being played) and the move, run with
`ignore_ko = true`, succeeds capturing exactly one stone, running it with
`ignore_ko = false` fails with `Ko` — so the recapture fails iff `ignore_ko`
is unset; (2) after any committed intervening move played elsewhere, a move
at the formerly empty point is never rejected as `Ko`; (3) in that situation,
if the recapture (still capturing exactly one stone) succeeds under
`ignore_ko = true` it equally succeeds under `ignore_ko = false`. -/
theorem c2_ko_recapture :
    (∀ (st : ChainState) (move : Move),
      st.last_capture = [move] →
      (validate_move_and_update_chains st move true).2 = none →
      (validate_move_and_update_chains st move true).1.last_capture.length = 1 →
      (validate_move_and_update_chains st move false).2 = some IllegalMove.ko) ∧
    (∀ (st st1 : ChainState) (mv m2 : Move) (ig1 ig2 : Bool) (px py : Int),
      StInv st → m2.coords = some (px, py) → cellGet st.board py px = -1 →
      mv.coords ≠ some (px, py) →
      play_state st mv ig1 = (st1, none) →
      (validate_move_and_update_chains st1 m2 ig2).2 ≠ some IllegalMove.ko) ∧
    (∀ (st st1 : ChainState) (mv m2 : Move) (ig1 : Bool) (px py : Int),
      StInv st → m2.coords = some (px, py) → cellGet st.board py px = -1 →
      mv.coords ≠ some (px, py) →
      play_state st mv ig1 = (st1, none) →
      validate_move_and_update_chains st1 m2 false =
        validate_move_and_update_chains st1 m2 true) := by
  refine ⟨?_, ?_, ?_⟩
  · intro st move hlc h hlen
    cases hrun : validate_move_and_update_chains st move true with
    | mk st' e =>
      rw [hrun] at h hlen
      simp only at h hlen
      subst h
      unfold validate_move_and_update_chains at hrun ⊢
      cases hc : move.coords with
      | none =>
        rw [hc] at hrun
        simp only [] at hrun
        injection hrun with h1 h2
        rw [← h1] at hlen
        simp at hlen
      | some p =>
        obtain ⟨x, y⟩ := p
        rw [hc] at hrun
        simp only [] at hrun ⊢
        split at hrun
        · exact absurd (Prod.mk.injEq _ _ _ _ ▸ hrun).2 (by simp)
        · rename_i hocc
          rw [if_neg hocc]
          split at hrun
          · exact absurd (Prod.mk.injEq _ _ _ _ ▸ hrun).2 (by simp)
          · split at hrun
            · have hst' := (Prod.mk.injEq _ _ _ _ ▸ hrun).1
              rw [← hst'] at hlen
              simp only at hlen
              rw [if_pos ?_]
              simp [hlc, hlen]
            · exact absurd (Prod.mk.injEq _ _ _ _ ▸ hrun).2 (by simp)
  · intro st st1 mv m2 ig1 ig2 px py hI hm2 hemp hne hplay hko
    exact no_recapture_trigger hI hm2 hemp hne hplay (validate_ko_requires hko)
  · intro st st1 mv m2 ig1 px py hI hm2 hemp hne hplay
    exact validate_ignore_ko_eq (no_recapture_trigger hI hm2 hemp hne hplay) false true

set_option maxRecDepth 1000000 in
/-- Witness for C2 on the concrete 4×4 ko: White's immediate recapture at
(1,1) is rejected as `Ko`, and after the intervening White (3,0) the same
recapture succeeds. -/
theorem c2_ko_recapture_witness :
    (validate_move_and_update_chains (runMoves 4 koDemo).1 (mW 1 1) false).2 =
      some IllegalMove.ko ∧
    (validate_move_and_update_chains
      (play_state (runMoves 4 koDemo).1 (mW 3 0) false).1 (mW 1 1) false).2 = none := by
  constructor
  · exact c2_ko_recapture.1 (runMoves 4 koDemo).1 (mW 1 1) (by decide) (by decide) (by decide)
  · have heq := c2_ko_recapture.2.2 (runMoves 4 koDemo).1
      (play_state (runMoves 4 koDemo).1 (mW 3 0) false).1 (mW 3 0) (mW 1 1) false 1 1
      (runMoves_inv 4 koDemo (by decide)) (by decide) (by decide) (by decide) (by decide)
    rw [heq]
    decide

set_option maxRecDepth 1000000 in
/-- C3 counterexample: in the 4×4 ko position, White's recapture at (1,1)
leaves White's own chain with exactly one liberty, `(2,1)` — a self-atari —
yet the move does not succeed: it is rejected as `Ko`. -/
theorem c3_counterexample :
    libertyCoords (runMoves 4 koDemo).1.board_size
      (applyCaptures (runMoves 4 koDemo).1.board_size
        (applyPlacement (runMoves 4 koDemo).1.board_size (runMoves 4 koDemo).1.board
          (runMoves 4 koDemo).1.chains (mW 1 1) 1 1).board
        (applyPlacement (runMoves 4 koDemo).1.board_size (runMoves 4 koDemo).1.board
          (runMoves 4 koDemo).1.chains (mW 1 1) 1 1).chains (mW 1 1)).board
      (pyGetD (applyCaptures (runMoves 4 koDemo).1.board_size
        (applyPlacement (runMoves 4 koDemo).1.board_size (runMoves 4 koDemo).1.board
          (runMoves 4 koDemo).1.chains (mW 1 1) 1 1).board
        (applyPlacement (runMoves 4 koDemo).1.board_size (runMoves 4 koDemo).1.board
          (runMoves 4 koDemo).1.chains (mW 1 1) 1 1).chains (mW 1 1)).chains
        (applyPlacement (runMoves 4 koDemo).1.board_size (runMoves 4 koDemo).1.board
          (runMoves 4 koDemo).1.chains (mW 1 1) 1 1).this_chain []) = [(2, 1)] ∧
    (validate_move_and_update_chains (runMoves 4 koDemo).1 (mW 1 1) false).2 =
      some IllegalMove.ko ∧
    ¬(validate_move_and_update_chains (runMoves 4 koDemo).1 (mW 1 1) false).2 = none := by
  refine ⟨by decide, by decide, by decide⟩

/-- C3 amended: (1) a move into an empty cell that captures nothing and
leaves its own chain with no liberty fails with `Suicide`; (2) a move that
leaves its own chain with exactly one liberty (self-atari) succeeds unless
it is the ko-prohibited recapture — self-atari is never rejected as
`Suicide`. -/
theorem c3_suicide_selfatari :
    (∀ (st : ChainState) (move : Move) (ig : Bool) (x y : Int),
      move.coords = some (x, y) →
      cellGet st.board y x = -1 →
      (applyCaptures st.board_size
        (applyPlacement st.board_size st.board st.chains move x y).board
        (applyPlacement st.board_size st.board st.chains move x y).chains
        move).last_capture = [] →
      (-1) ∉ neighbourValues st.board_size
        (applyCaptures st.board_size
          (applyPlacement st.board_size st.board st.chains move x y).board
          (applyPlacement st.board_size st.board st.chains move x y).chains move).board
        (pyGetD (applyCaptures st.board_size
          (applyPlacement st.board_size st.board st.chains move x y).board
          (applyPlacement st.board_size st.board st.chains move x y).chains move).chains
          (applyPlacement st.board_size st.board st.chains move x y).this_chain []) →
      (validate_move_and_update_chains st move ig).2 = some IllegalMove.suicide) ∧
    (∀ (st : ChainState) (move : Move) (ig : Bool) (x y : Int) (p : Int × Int),
      move.coords = some (x, y) →
      cellGet st.board y x = -1 →
      libertyCoords st.board_size
        (applyCaptures st.board_size
          (applyPlacement st.board_size st.board st.chains move x y).board
          (applyPlacement st.board_size st.board st.chains move x y).chains move).board
        (pyGetD (applyCaptures st.board_size
          (applyPlacement st.board_size st.board st.chains move x y).board
          (applyPlacement st.board_size st.board st.chains move x y).chains move).chains
          (applyPlacement st.board_size st.board st.chains move x y).this_chain []) = [p] →
      ¬(st.last_capture = [move] ∧
        (applyCaptures st.board_size
          (applyPlacement st.board_size st.board st.chains move x y).board
          (applyPlacement st.board_size st.board st.chains move x y).chains
          move).last_capture.length = 1 ∧ ig = false) →
      (validate_move_and_update_chains st move ig).2 = none) := by
  constructor
  · intro st move ig x y hc hemp hnc hnl
    unfold validate_move_and_update_chains
    rw [hc]
    simp only []
    rw [if_neg (show ¬cellGet st.board y x ≠ -1 from fun hcon => hcon hemp)]
    rw [hnc]
    rw [if_neg (by simp)]
    rw [if_neg hnl]
  · intro st move ig x y p hc hemp hlib hnko
    unfold validate_move_and_update_chains
    rw [hc]
    simp only []
    rw [if_neg (show ¬cellGet st.board y x ≠ -1 from fun hcon => hcon hemp)]
    have hkcond : ¬((((st.last_capture.length == 1) &&
        (st.last_capture.headD mdefault == move)) &&
        ((applyCaptures st.board_size
          (applyPlacement st.board_size st.board st.chains move x y).board
          (applyPlacement st.board_size st.board st.chains move x y).chains
          move).last_capture.length == 1) && !ig) = true) := by
      intro hcond
      simp only [Bool.and_eq_true, beq_iff_eq, Nat.beq_eq_true_eq, Bool.not_eq_true'] at hcond
      obtain ⟨⟨⟨hl1, hl2⟩, hl3⟩, hl4⟩ := hcond
      exact hnko ⟨(length_one_eq_singleton (d := mdefault) hl1).trans (by rw [hl2]), hl3, hl4⟩
    rw [if_neg hkcond]
    rw [if_pos (neg_one_mem_of_liberty (p := p) (by rw [hlib]; exact List.mem_singleton.mpr rfl))]

set_option maxRecDepth 1000000 in
/-- Witness for the amended C3: on 2×2, White (0,0) with no capture and no
liberty is a Suicide; on 3×3 next to a White stone, Black (0,0) with exactly
the liberty (0,1) succeeds. -/
theorem c3_suicide_selfatari_witness :
    (validate_move_and_update_chains (runMoves 2 suicideDemo).1 (mW 0 0) false).2 =
      some IllegalMove.suicide ∧
    (validate_move_and_update_chains (runMoves 3 atariDemo).1 (mB 0 0) false).2 = none := by
  constructor
  · exact c3_suicide_selfatari.1 (runMoves 2 suicideDemo).1 (mW 0 0) false 0 0 (by decide)
      (by decide) (by decide) (by decide)
  · exact c3_suicide_selfatari.2 (runMoves 3 atariDemo).1 (mB 0 0) false 0 0 ((0 : Int), (1 : Int))
      (by decide) (by decide) (by decide) (by decide)

theorem replayFold_error (l : List Move) (st : ChainState) (e : IllegalMove) :
    l.foldl
      (fun acc m =>
        match acc.2 with
        | some _ => acc
        | none => validate_move_and_update_chains acc.1 m true)
      (st, some e) = (st, some e) := by
  induction l with
  | nil => rfl
  | cons m l ih => rw [List.foldl_cons]; exact ih

theorem replayFold_board_size (l : List Move) :
    ∀ acc : ChainState × Option IllegalMove,
      (l.foldl
        (fun acc m =>
          match acc.2 with
          | some _ => acc
          | none => validate_move_and_update_chains acc.1 m true)
        acc).1.board_size = acc.1.board_size := by
  induction l with
  | nil => intro acc; rfl
  | cons m l ih =>
    intro acc
    obtain ⟨st, e⟩ := acc
    rw [List.foldl_cons, ih]
    cases e with
    | some err => rfl
    | none => exact validate_board_size st m true

theorem replayMoves_board_size (n : Nat) (ms : List Move) :
    (replayMoves n ms).1.board_size = n := by
  unfold replayMoves
  rw [replayFold_board_size]
  rfl

theorem replayMoves_snoc (n : Nat) (ms : List Move) (m : Move)
    (h : (replayMoves n ms).2 = none) :
    replayMoves n (ms ++ [m]) =
      validate_move_and_update_chains (replayMoves n ms).1 m true := by
  unfold replayMoves at h ⊢
  rw [List.foldl_append, List.foldl_cons, List.foldl_nil]
  rw [h]

/-- If a move is accepted with any `ignore_ko` flag, it is accepted with the
flag set, with the same resulting state: the flag only affects the `Ko`
rejection. -/
theorem validate_true_of_success {st : ChainState} {m : Move} {ig : Bool}
    (h : (validate_move_and_update_chains st m ig).2 = none) :
    validate_move_and_update_chains st m true = validate_move_and_update_chains st m ig := by
  cases ig with
  | true => rfl
  | false =>
    unfold validate_move_and_update_chains at h ⊢
    cases hc : m.coords with
    | none => rfl
    | some p =>
      obtain ⟨x, y⟩ := p
      rw [hc] at h
      simp only [] at h ⊢
      by_cases hocc : cellGet st.board y x ≠ -1
      · rw [if_pos hocc, if_pos hocc]
      · rw [if_neg hocc] at h
        rw [if_neg hocc, if_neg hocc]
        split at h
        · exact absurd h (by simp)
        · rename_i hcf
          rw [if_neg (by simp), if_neg hcf]

theorem getAt_lineChain (k : Nat) :
    ∀ (ms : List Move) (mv : Option Move), k ≤ ms.length →
      ∃ mv', GNode.getAt (List.replicate k 0) (GNode.node mv (lineChain ms)) =
        some (GNode.node mv' (lineChain (ms.drop k))) := by
  induction k with
  | zero =>
    intro ms mv _
    exact ⟨mv, by rw [List.replicate_zero, List.drop_zero]; rfl⟩
  | succ k ih =>
    intro ms mv h
    cases ms with
    | nil => exact absurd h (by simp)
    | cons m ms' =>
      obtain ⟨mv', heq⟩ := ih ms' (some m) (Nat.le_of_succ_le_succ h)
      refine ⟨mv', ?_⟩
      rw [List.replicate_succ]
      simpa [GNode.getAt, GNode.childrenOf, lineChain] using heq

theorem movesAlong_lineChain (k : Nat) :
    ∀ (ms : List Move) (mv : Option Move), k ≤ ms.length →
      GNode.movesAlong (List.replicate k 0) (GNode.node mv (lineChain ms)) = ms.take k := by
  induction k with
  | zero => intro ms mv _; rfl
  | succ k ih =>
    intro ms mv h
    cases ms with
    | nil => exact absurd h (by simp)
    | cons m ms' =>
      have heq := ih ms' (some m) (Nat.le_of_succ_le_succ h)
      rw [List.replicate_succ]
      simpa [GNode.movesAlong, GNode.childrenOf, GNode.moveOf, lineChain] using heq

theorem appendAt_lineChain (ms : List Move) :
    ∀ (mv : Option Move) (m' : Move),
      GNode.appendAt (List.replicate ms.length 0) m' (GNode.node mv (lineChain ms)) =
        GNode.node mv (lineChain (ms ++ [m'])) := by
  induction ms with
  | nil => intro mv m'; rfl
  | cons m ms' ih =>
    intro mv m'
    have heq := ih (some m) m'
    rw [List.length_cons, List.replicate_succ]
    simp only [lineChain, List.cons_append]
    simp only [GNode.appendAt, List.getElem?_cons_zero, List.set_cons_zero]
    rw [heq]
    rfl

theorem playReachable_inv (g : Game) (h : PlayReachable g) : PlayInv g := by
  induction h with
  | init n =>
    exact ⟨[], rfl, rfl, rfl, rfl⟩
  | play g m ig g' hr heq ih =>
    obtain ⟨ms, hroot, hpath, hcs, herr⟩ := ih
    unfold Game.play at heq
    cases hps : play_state g.cs m ig with
    | mk st e =>
      rw [hps] at heq
      cases e with
      | some err =>
        simp only [] at heq
        exact absurd (congrArg Prod.snd heq) (by simp)
      | none =>
        simp only [] at heq
        have hbs : st.board_size = g.cs.board_size := by
          have hb2 := play_state_board_size g.cs m ig
          rw [hps] at hb2
          exact hb2
        have hvsucc : validate_move_and_update_chains g.cs m ig = (st, none) := by
          unfold play_state at hps
          cases hbo : boundsOk g.cs.board_size m with
          | false =>
            rw [hbo] at hps
            simp only [Bool.not_false, if_pos] at hps
            exact absurd (congrArg Prod.snd hps) (by simp)
          | true =>
            rw [hbo] at hps
            simp only [Bool.not_true, Bool.false_eq_true, if_false] at hps
            exact hps
        have hvt : validate_move_and_update_chains g.cs m true = (st, none) := by
          rw [validate_true_of_success (by rw [hvsucc])]
          exact hvsucc
        obtain ⟨mv', hget⟩ := getAt_lineChain ms.length ms none (Nat.le_refl _)
        rw [List.drop_length] at hget
        rw [hroot, hpath, hget] at heq
        simp only [] at heq
        have hg' : g' = Game.mk
            (GNode.appendAt (List.replicate ms.length 0) m (GNode.node none (lineChain ms)))
            (List.replicate ms.length 0 ++ [(GNode.node mv' (lineChain [])).childrenOf.length])
            st := (congrArg Prod.fst heq).symm
        refine ⟨ms ++ [m], ?_, ?_, ?_, ?_⟩
        · rw [hg']
          exact appendAt_lineChain ms none m
        · rw [hg']
          show List.replicate ms.length 0 ++ [0] = List.replicate (ms ++ [m]).length 0
          rw [List.length_append, List.length_cons, List.length_nil]
          rw [← List.replicate_succ']
        · rw [hg']
          show st = (replayMoves st.board_size (ms ++ [m])).1
          rw [hbs]
          rw [replayMoves_snoc g.cs.board_size ms m herr, ← hcs, hvt]
        · rw [hg']
          show (replayMoves st.board_size (ms ++ [m])).2 = none
          rw [hbs]
          rw [replayMoves_snoc g.cs.board_size ms m herr, ← hcs, hvt]

/-- C7: for every session reached by a sequence of played moves, `undo`
followed by `redo` restores the session exactly — the same current node and
an identical board grid and chain state. -/
theorem c7_undo_redo (g : Game) (h : PlayReachable g) : Game.redo (Game.undo g) = g := by
  obtain ⟨ms, hroot, hpath, hcs, herr⟩ := playReachable_inv g h
  rcases List.eq_nil_or_concat ms with hnil | ⟨ms₀, m, hconc⟩
  · subst hnil
    have hp : g.path = [] := hpath
    unfold Game.undo
    rw [if_pos hp]
    unfold Game.redo
    rw [hp, hroot]
    rfl
  · subst hconc
    simp only [List.concat_eq_append] at hroot hpath hcs herr
    have hpath' : g.path = List.replicate ms₀.length 0 ++ [0] := by
      rw [hpath, show (ms₀ ++ [m]).length = ms₀.length + 1 by simp, List.replicate_succ']
    have hne : g.path ≠ [] := by
      rw [hpath']
      simp
    have hdl : g.path.dropLast = List.replicate ms₀.length 0 := by
      rw [hpath']
      exact List.dropLast_concat
    have hma : GNode.movesAlong g.path.dropLast g.root = ms₀ := by
      rw [hdl, hroot, movesAlong_lineChain ms₀.length (ms₀ ++ [m]) none (by simp)]
      exact List.take_left ms₀ [m]
    unfold Game.undo
    rw [if_neg hne]
    have hG1 : Game.init_chains { g with path := g.path.dropLast } =
        Game.mk g.root (List.replicate ms₀.length 0)
          ((replayMoves g.cs.board_size ms₀).1) := by
      show Game.mk g.root g.path.dropLast
          ((replayMoves g.cs.board_size (GNode.movesAlong g.path.dropLast g.root)).1) =
        Game.mk g.root (List.replicate ms₀.length 0) ((replayMoves g.cs.board_size ms₀).1)
      rw [hma, hdl]
    rw [hG1]
    obtain ⟨mv', hget⟩ := getAt_lineChain ms₀.length (ms₀ ++ [m]) none (by simp)
    rw [List.drop_left] at hget
    have hget' : GNode.getAt (List.replicate ms₀.length 0) g.root =
        some (GNode.node mv' (lineChain [m])) := by
      rw [hroot]
      exact hget
    unfold Game.redo
    simp only []
    rw [hget']
    simp only [GNode.childrenOf, lineChain, List.length_cons, List.length_nil]
    have hma2 : GNode.movesAlong (List.replicate ms₀.length 0 ++ [0]) g.root = ms₀ ++ [m] := by
      rw [← hpath', hpath, hroot,
        movesAlong_lineChain (ms₀ ++ [m]).length (ms₀ ++ [m]) none (Nat.le_refl _)]
      exact List.take_length _
    show Game.init_chains (Game.mk g.root (List.replicate ms₀.length 0 ++ [0])
        ((replayMoves g.cs.board_size ms₀).1)) = g
    show Game.mk g.root (List.replicate ms₀.length 0 ++ [0])
        ((replayMoves (replayMoves g.cs.board_size ms₀).1.board_size
          (GNode.movesAlong (List.replicate ms₀.length 0 ++ [0]) g.root)).1) = g
    rw [replayMoves_board_size, hma2, ← hpath', ← hcs]

set_option maxRecDepth 1000000 in
/-- Witness for C7: playing Black (0,0) on an empty 3×3 game, then undoing
and redoing, restores the session exactly. -/
theorem c7_undo_redo_witness :
    Game.redo (Game.undo ((Game.play (Game.initGame 3) (mB 0 0) false).1)) =
      (Game.play (Game.initGame 3) (mB 0 0) false).1 :=
  c7_undo_redo ((Game.play (Game.initGame 3) (mB 0 0) false).1)
    (PlayReachable.play (Game.initGame 3) (mB 0 0) false
      ((Game.play (Game.initGame 3) (mB 0 0) false).1) (PlayReachable.init 3) rfl)

theorem getAt_append_one (p : List Nat) (i : Nat) :
    ∀ g : GNode, GNode.getAt (p ++ [i]) g =
      (GNode.getAt p g).bind (fun nd => (GNode.childrenOf nd)[i]?) := by
  induction p with
  | nil =>
    intro g
    show (match (GNode.childrenOf g)[i]? with
      | some c => GNode.getAt [] c
      | none => none) = (GNode.childrenOf g)[i]?
    cases (GNode.childrenOf g)[i]? <;> rfl
  | cons j p' ih =>
    intro g
    rw [List.cons_append]
    simp only [GNode.getAt]
    cases (GNode.childrenOf g)[j]? with
    | none => rfl
    | some c => exact ih c

theorem moveOf_appendAt (p : List Nat) (m : Move) (g : GNode) :
    GNode.moveOf (GNode.appendAt p m g) = GNode.moveOf g := by
  cases g with
  | node mv cs =>
    cases p with
    | nil => rfl
    | cons i p' =>
      simp only [GNode.appendAt]
      cases cs[i]? <;> rfl

theorem appendAt_getAt_movesAlong (m : Move) :
    ∀ (q : List Nat) (g nd : GNode), GNode.getAt q g = some nd →
      GNode.getAt (q ++ [nd.childrenOf.length]) (GNode.appendAt q m g) =
        some (GNode.node (some m) []) ∧
      GNode.movesAlong (q ++ [nd.childrenOf.length]) (GNode.appendAt q m g) =
        GNode.movesAlong q g ++ [m] := by
  intro q
  induction q with
  | nil =>
    intro g nd h
    cases g with
    | node mv cs =>
      have h' : some (GNode.node mv cs) = some nd := h
      injection h' with h2
      subst h2
      constructor
      · show (match (cs ++ [GNode.node (some m) []])[cs.length]? with
          | some c => GNode.getAt [] c
          | none => none) = some (GNode.node (some m) [])
        rw [List.getElem?_concat_length]
        rfl
      · show (match (cs ++ [GNode.node (some m) []])[cs.length]? with
          | some c =>
            (match GNode.moveOf c with
             | some mm => [mm]
             | none => []) ++ GNode.movesAlong [] c
          | none => []) = GNode.movesAlong [] (GNode.node mv cs) ++ [m]
        rw [List.getElem?_concat_length]
        rfl
  | cons j q' ih =>
    intro g nd h
    cases g with
    | node mv cs =>
      simp only [GNode.getAt, GNode.childrenOf] at h
      rcases hj : cs[j]? with _ | c
      · rw [hj] at h
        exact absurd h (by simp)
      · rw [hj] at h
        simp only [] at h
        obtain ⟨ih1, ih2⟩ := ih c nd h
        have hjlt : j < cs.length := by
          rw [List.getElem?_eq_some] at hj
          exact hj.1
        have happ : GNode.appendAt (j :: q') m (GNode.node mv cs) =
            GNode.node mv (cs.set j (GNode.appendAt q' m c)) := by
          simp only [GNode.appendAt]
          rw [hj]
        rw [happ]
        have hset : (cs.set j (GNode.appendAt q' m c))[j]? = some (GNode.appendAt q' m c) :=
          List.getElem?_set_eq_of_lt _ hjlt
        constructor
        · show (match (cs.set j (GNode.appendAt q' m c))[j]? with
            | some c' => GNode.getAt (q' ++ [nd.childrenOf.length]) c'
            | none => none) = some (GNode.node (some m) [])
          rw [hset]
          exact ih1
        · show (match (cs.set j (GNode.appendAt q' m c))[j]? with
            | some c' =>
              (match GNode.moveOf c' with
               | some mm => [mm]
               | none => []) ++ GNode.movesAlong (q' ++ [nd.childrenOf.length]) c'
            | none => []) =
            GNode.movesAlong (j :: q') (GNode.node mv cs) ++ [m]
          rw [hset]
          simp only [moveOf_appendAt, ih2]
          show _ = (match cs[j]? with
            | some c' =>
              (match GNode.moveOf c' with
               | some mm => [mm]
               | none => []) ++ GNode.movesAlong q' c'
            | none => []) ++ [m]
          rw [hj]
          simp only []
          rw [List.append_assoc]

theorem appendAt_getAt_cases (m : Move) :
    ∀ (q : List Nat) (g : GNode) (p : List Nat) (nd : GNode),
      GNode.getAt p (GNode.appendAt q m g) = some nd →
      ((∃ nd₀, GNode.getAt p g = some nd₀) ∧
        GNode.movesAlong p (GNode.appendAt q m g) = GNode.movesAlong p g) ∨
      (∃ nd₀, GNode.getAt q g = some nd₀ ∧ p = q ++ [nd₀.childrenOf.length] ∧
        GNode.movesAlong p (GNode.appendAt q m g) =
          GNode.movesAlong q g ++ [m]) := by
  intro q
  induction q with
  | nil =>
    intro g p nd h
    cases g with
    | node mv cs =>
      cases p with
      | nil => exact Or.inl ⟨⟨GNode.node mv cs, rfl⟩, rfl⟩
      | cons i p' =>
        have h' : (match (cs ++ [GNode.node (some m) []])[i]? with
            | some c => GNode.getAt p' c
            | none => none) = some nd := h
        by_cases hi : i < cs.length
        · have he : (cs ++ [GNode.node (some m) []])[i]? = cs[i]? := by
            rw [List.getElem?_append]
            rw [if_pos hi]
          rw [he] at h'
          refine Or.inl ⟨⟨nd, h'⟩, ?_⟩
          show (match (cs ++ [GNode.node (some m) []])[i]? with
            | some c =>
              (match GNode.moveOf c with
               | some mm => [mm]
               | none => []) ++ GNode.movesAlong p' c
            | none => []) =
            (match cs[i]? with
             | some c =>
               (match GNode.moveOf c with
                | some mm => [mm]
                | none => []) ++ GNode.movesAlong p' c
             | none => [])
          rw [he]
        · by_cases hieq : i = cs.length
          · subst hieq
            rw [List.getElem?_concat_length] at h'
            simp only [] at h'
            cases p' with
            | cons i2 p2 => exact absurd h' (by simp [GNode.getAt, GNode.childrenOf])
            | nil =>
              refine Or.inr ⟨GNode.node mv cs, rfl, rfl, ?_⟩
              show (match (cs ++ [GNode.node (some m) []])[cs.length]? with
                | some c =>
                  (match GNode.moveOf c with
                   | some mm => [mm]
                   | none => []) ++ GNode.movesAlong [] c
                | none => []) = GNode.movesAlong [] (GNode.node mv cs) ++ [m]
              rw [List.getElem?_concat_length]
              rfl
          · have he : (cs ++ [GNode.node (some m) []])[i]? = none := by
              rw [List.getElem?_append]
              rw [if_neg hi]
              refine List.getElem?_eq_none ?_
              simp only [List.length_cons, List.length_nil]
              omega
            rw [he] at h'
            exact absurd h' (by simp)
  | cons j q' ih =>
    intro g p nd h
    cases g with
    | node mv cs =>
      rcases hj : cs[j]? with _ | cj
      · have happ : GNode.appendAt (j :: q') m (GNode.node mv cs) = GNode.node mv cs := by
          simp only [GNode.appendAt]
          rw [hj]
        rw [happ] at h
        exact Or.inl ⟨⟨nd, h⟩, by rw [happ]⟩
      · have hjlt : j < cs.length := by
          rw [List.getElem?_eq_some] at hj
          exact hj.1
        have happ : GNode.appendAt (j :: q') m (GNode.node mv cs) =
            GNode.node mv (cs.set j (GNode.appendAt q' m cj)) := by
          simp only [GNode.appendAt]
          rw [hj]
        rw [happ] at h
        cases p with
        | nil => exact Or.inl ⟨⟨GNode.node mv cs, rfl⟩, rfl⟩
        | cons i p' =>
          have h' : (match (cs.set j (GNode.appendAt q' m cj))[i]? with
              | some c => GNode.getAt p' c
              | none => none) = some nd := h
          by_cases hij : i = j
          · subst hij
            rw [List.getElem?_set_eq_of_lt _ hjlt] at h'
            simp only [] at h'
            rcases ih cj p' nd h' with ⟨⟨nd₀, h₀⟩, hmv⟩ | ⟨nd₀, h₀, hp', hmv⟩
            · refine Or.inl ⟨⟨nd₀, ?_⟩, ?_⟩
              · show (match cs[i]? with
                  | some c => GNode.getAt p' c
                  | none => none) = some nd₀
                rw [hj]
                exact h₀
              · rw [happ]
                show (match (cs.set i (GNode.appendAt q' m cj))[i]? with
                  | some c =>
                    (match GNode.moveOf c with
                     | some mm => [mm]
                     | none => []) ++ GNode.movesAlong p' c
                  | none => []) =
                  (match cs[i]? with
                   | some c =>
                     (match GNode.moveOf c with
                      | some mm => [mm]
                      | none => []) ++ GNode.movesAlong p' c
                   | none => [])
                rw [List.getElem?_set_eq_of_lt _ hjlt, hj]
                simp only [moveOf_appendAt, hmv]
            · refine Or.inr ⟨nd₀, ?_, ?_, ?_⟩
              · show (match cs[i]? with
                  | some c => GNode.getAt q' c
                  | none => none) = some nd₀
                rw [hj]
                exact h₀
              · rw [hp', List.cons_append]
              · rw [happ]
                show (match (cs.set i (GNode.appendAt q' m cj))[i]? with
                  | some c =>
                    (match GNode.moveOf c with
                     | some mm => [mm]
                     | none => []) ++ GNode.movesAlong p' c
                  | none => []) =
                  (match cs[i]? with
                   | some c =>
                     (match GNode.moveOf c with
                      | some mm => [mm]
                      | none => []) ++ GNode.movesAlong q' c
                   | none => []) ++ [m]
                rw [List.getElem?_set_eq_of_lt _ hjlt, hj]
                simp only [moveOf_appendAt, hmv]
                rw [List.append_assoc]
          · have hne : (cs.set j (GNode.appendAt q' m cj))[i]? = cs[i]? :=
              List.getElem?_set_ne (fun hh => hij hh.symm)
            rw [hne] at h'
            refine Or.inl ⟨⟨nd, h'⟩, ?_⟩
            rw [happ]
            show (match (cs.set j (GNode.appendAt q' m cj))[i]? with
              | some c =>
                (match GNode.moveOf c with
                 | some mm => [mm]
                 | none => []) ++ GNode.movesAlong p' c
              | none => []) =
              (match cs[i]? with
               | some c =>
                 (match GNode.moveOf c with
                  | some mm => [mm]
                  | none => []) ++ GNode.movesAlong p' c
               | none => [])
            rw [hne]

theorem good_init_chains (g : Game) (newPath : List Nat)
    (hv : (GNode.getAt newPath g.root).isSome)
    (htl : TreeLegal g.cs.board_size g.root) :
    Good (Game.init_chains { g with path := newPath }) := by
  refine ⟨hv, ?_, ?_⟩
  · show (replayMoves g.cs.board_size (GNode.movesAlong newPath g.root)).1 =
      (replayMoves (replayMoves g.cs.board_size
        (GNode.movesAlong newPath g.root)).1.board_size
        (GNode.movesAlong newPath g.root)).1
    rw [replayMoves_board_size]
  · show TreeLegal (replayMoves g.cs.board_size
      (GNode.movesAlong newPath g.root)).1.board_size g.root
    rw [replayMoves_board_size]
    exact htl

theorem reachable_good (g : Game) (h : Reachable g) : Good g := by
  induction h with
  | init n =>
    refine ⟨rfl, rfl, ?_⟩
    intro p hp
    cases p with
    | nil => rfl
    | cons i p' =>
      exact absurd hp (by simp [Game.initGame, GNode.getAt, GNode.childrenOf])
  | play g m ig g' hr heq ih =>
    obtain ⟨ha, hb, hc⟩ := ih
    obtain ⟨nd, hnd⟩ := Option.isSome_iff_exists.mp ha
    unfold Game.play at heq
    cases hps : play_state g.cs m ig with
    | mk st e =>
      rw [hps] at heq
      cases e with
      | some err =>
        simp only [] at heq
        exact absurd (congrArg Prod.snd heq) (by simp)
      | none =>
        simp only [] at heq
        rw [hnd] at heq
        simp only [] at heq
        have hg' : g' = Game.mk (GNode.appendAt g.path m g.root)
            (g.path ++ [nd.childrenOf.length]) st := (congrArg Prod.fst heq).symm
        have hbs : st.board_size = g.cs.board_size := by
          have hb2 := play_state_board_size g.cs m ig
          rw [hps] at hb2
          exact hb2
        have hvsucc : validate_move_and_update_chains g.cs m ig = (st, none) := by
          unfold play_state at hps
          cases hbo : boundsOk g.cs.board_size m with
          | false =>
            rw [hbo] at hps
            simp only [Bool.not_false, if_pos] at hps
            exact absurd (congrArg Prod.snd hps) (by simp)
          | true =>
            rw [hbo] at hps
            simp only [Bool.not_true, Bool.false_eq_true, if_false] at hps
            exact hps
        have hvt : validate_move_and_update_chains g.cs m true = (st, none) := by
          rw [validate_true_of_success (by rw [hvsucc])]
          exact hvsucc
        have herr : (replayMoves g.cs.board_size (GNode.movesAlong g.path g.root)).2 =
            none := hc g.path ha
        obtain ⟨hC1, hC2⟩ := appendAt_getAt_movesAlong m g.path g.root nd hnd
        have hreplay : replayMoves g.cs.board_size
            (GNode.movesAlong (g.path ++ [nd.childrenOf.length])
              (GNode.appendAt g.path m g.root)) = (st, none) := by
          rw [hC2, replayMoves_snoc g.cs.board_size _ m herr, ← hb, hvt]
        refine ⟨?_, ?_, ?_⟩
        · rw [hg']
          show (GNode.getAt (g.path ++ [nd.childrenOf.length])
            (GNode.appendAt g.path m g.root)).isSome
          rw [hC1]
          rfl
        · rw [hg']
          show st = (replayMoves st.board_size
            (GNode.movesAlong (g.path ++ [nd.childrenOf.length])
              (GNode.appendAt g.path m g.root))).1
          rw [hbs, hreplay]
        · rw [hg']
          show TreeLegal st.board_size (GNode.appendAt g.path m g.root)
          rw [hbs]
          intro p hp
          obtain ⟨nd₂, hnd₂⟩ := Option.isSome_iff_exists.mp hp
          rcases appendAt_getAt_cases m g.path g.root p nd₂ hnd₂ with
            ⟨⟨nd₀, h₀⟩, hmv⟩ | ⟨nd₀, h₀, hpeq, hmv⟩
          · rw [hmv]
            exact hc p (by rw [h₀]; rfl)
          · rw [hmv, replayMoves_snoc g.cs.board_size _ m (hc g.path ha), ← hb, hvt]
  | undo g hr ih =>
    obtain ⟨ha, hb, hc⟩ := ih
    by_cases hpe : g.path = []
    · unfold Game.undo
      rw [if_pos hpe]
      exact ⟨ha, hb, hc⟩
    · unfold Game.undo
      rw [if_neg hpe]
      refine good_init_chains g g.path.dropLast ?_ hc
      have hsplit : g.path.dropLast ++ [g.path.getLast hpe] = g.path :=
        List.dropLast_append_getLast hpe
      rw [← hsplit] at ha
      rw [getAt_append_one] at ha
      cases hd : GNode.getAt g.path.dropLast g.root with
      | none => rw [hd] at ha; exact absurd ha (by simp)
      | some nd => rfl
  | redo g hr ih =>
    obtain ⟨ha, hb, hc⟩ := ih
    obtain ⟨nd, hnd⟩ := Option.isSome_iff_exists.mp ha
    unfold Game.redo
    rw [hnd]
    simp only []
    cases hlen : nd.childrenOf.length with
    | zero => exact ⟨ha, hb, hc⟩
    | succ k =>
      show Good (Game.init_chains { g with path := g.path ++ [k] })
      refine good_init_chains g (g.path ++ [k]) ?_ hc
      rw [getAt_append_one, hnd]
      show (nd.childrenOf[k]?).isSome
      rw [List.getElem?_eq_getElem (by omega)]
      rfl
  | switch g d hr ih =>
    obtain ⟨ha, hb, hc⟩ := ih
    unfold Game.switch_branch
    cases hlast : g.path.getLast? with
    | none => exact ⟨ha, hb, hc⟩
    | some ix =>
      have hpe : g.path ≠ [] := by
        intro hh
        rw [hh] at hlast
        exact Option.noConfusion hlast
      have hsplit : g.path.dropLast ++ [g.path.getLast hpe] = g.path :=
        List.dropLast_append_getLast hpe
      have hgl : g.path.getLast hpe = ix := by
        have := List.getLast?_eq_getLast g.path hpe
        rw [hlast] at this
        exact (Option.some.injEq _ _ ▸ this).symm
      cases hd : GNode.getAt g.path.dropLast g.root with
      | none =>
        exfalso
        rw [← hsplit, getAt_append_one, hd] at ha
        exact absurd ha (by simp)
      | some par =>
        simp only []
        by_cases hk : 1 < par.childrenOf.length
        · rw [if_pos hk]
          show Good (Game.init_chains { g with path := g.path.dropLast ++
            [(((ix : Int) + d) % (par.childrenOf.length : Int)).toNat] })
          refine good_init_chains g _ ?_ hc
          rw [getAt_append_one, hd]
          show (par.childrenOf[(((ix : Int) + d) %
            (par.childrenOf.length : Int)).toNat]?).isSome
          have hlpos : (0 : Int) < (par.childrenOf.length : Int) := by
            exact_mod_cast Nat.lt_of_lt_of_le Nat.zero_lt_one (Nat.le_of_lt hk)
          have hmod1 : 0 ≤ ((ix : Int) + d) % (par.childrenOf.length : Int) :=
            Int.emod_nonneg _ (by omega)
          have hmod2 : ((ix : Int) + d) % (par.childrenOf.length : Int) <
              (par.childrenOf.length : Int) := Int.emod_lt_of_pos _ hlpos
          rw [List.getElem?_eq_getElem (by omega)]
          rfl
        · rw [if_neg hk]
          exact ⟨ha, hb, hc⟩

theorem switch_branch_step (h : Game) (dl : List Nat) (x : Nat) (par : GNode)
    (hpath : h.path = dl ++ [x])
    (hpar : GNode.getAt dl h.root = some par)
    (hk : 1 < par.childrenOf.length) :
    Game.switch_branch h 1 = Game.mk h.root
      (dl ++ [(x + 1) % par.childrenOf.length])
      ((replayMoves h.cs.board_size
        (GNode.movesAlong (dl ++ [(x + 1) % par.childrenOf.length]) h.root)).1) := by
  have hdl : h.path.dropLast = dl := by
    rw [hpath]
    exact List.dropLast_concat
  have hlast : h.path.getLast? = some x := by
    rw [hpath]
    exact List.getLast?_concat _
  have hcast : ((((x : Int) + 1) % ((par.childrenOf.length : Nat) : Int)).toNat) =
      (x + 1) % par.childrenOf.length := by
    rw [show ((x : Int) + 1) = (((x + 1 : Nat)) : Int) by push_cast; ring]
    rw [show (((x + 1 : Nat)) : Int) % ((par.childrenOf.length : Nat) : Int) =
      (((x + 1) % par.childrenOf.length : Nat) : Int) by push_cast; ring]
    exact Int.toNat_natCast _
  unfold Game.switch_branch
  rw [hlast, hdl, hpar]
  simp only []
  rw [if_pos hk]
  show Game.mk h.root (dl ++ [(((x : Int) + 1) % (par.childrenOf.length : Int)).toNat])
    ((replayMoves h.cs.board_size (GNode.movesAlong
      (dl ++ [(((x : Int) + 1) % (par.childrenOf.length : Int)).toNat]) h.root)).1) = _
  rw [hcast]

/-- C8: in any reachable session whose current node has a parent with
`k > 1` children, `switch_branch 1` moves to the sibling at index
`(index + 1) % k` in creation order, and `k` such calls return the session
to the original current node with identical state. -/
theorem c8_switch_branch (g : Game) (hr : Reachable g) (par : GNode) (ix : Nat)
    (hpar : GNode.getAt g.path.dropLast g.root = some par)
    (hix : g.path.getLast? = some ix)
    (hk : 1 < par.childrenOf.length) :
    (Game.switch_branch g 1).path =
      g.path.dropLast ++ [(ix + 1) % par.childrenOf.length] ∧
    Nat.iterate (fun x => Game.switch_branch x 1) par.childrenOf.length g = g := by
  obtain ⟨ha, hb, hc⟩ := reachable_good g hr
  have hpe : g.path ≠ [] := by
    intro hh
    rw [hh] at hix
    exact Option.noConfusion hix
  have hgl : g.path.getLast hpe = ix := by
    have h2 := List.getLast?_eq_getLast g.path hpe
    rw [hix] at h2
    exact (Option.some.injEq _ _ ▸ h2).symm
  have hpg : g.path = g.path.dropLast ++ [ix] := by
    rw [← hgl]
    exact (List.dropLast_append_getLast hpe).symm
  have hixlt : ix < par.childrenOf.length := by
    rw [hpg, getAt_append_one, hpar] at ha
    have ha' : (par.childrenOf[ix]?).isSome := ha
    obtain ⟨c, hcc⟩ := Option.isSome_iff_exists.mp ha'
    rw [List.getElem?_eq_some] at hcc
    exact hcc.1
  have aux : ∀ j, Nat.iterate (fun x => Game.switch_branch x 1) (j + 1) g =
      Game.mk g.root (g.path.dropLast ++ [(ix + (j + 1)) % par.childrenOf.length])
        ((replayMoves g.cs.board_size (GNode.movesAlong
          (g.path.dropLast ++ [(ix + (j + 1)) % par.childrenOf.length]) g.root)).1) := by
    intro j
    induction j with
    | zero =>
      show Game.switch_branch g 1 = _
      rw [switch_branch_step g g.path.dropLast ix par hpg hpar hk]
    | succ j ihj =>
      rw [Function.iterate_succ_apply']
      rw [ihj]
      rw [switch_branch_step (Game.mk g.root
          (g.path.dropLast ++ [(ix + (j + 1)) % par.childrenOf.length])
          ((replayMoves g.cs.board_size (GNode.movesAlong
            (g.path.dropLast ++ [(ix + (j + 1)) % par.childrenOf.length]) g.root)).1))
        g.path.dropLast ((ix + (j + 1)) % par.childrenOf.length) par rfl hpar hk]
      simp only []
      rw [replayMoves_board_size, Nat.mod_add_mod]
      rw [show ix + (j + 1) + 1 = ix + (j + 1 + 1) from by omega]
  constructor
  · rw [switch_branch_step g g.path.dropLast ix par hpg hpar hk]
  · have hk2 : par.childrenOf.length - 1 + 1 = par.childrenOf.length := by omega
    rw [← hk2, aux (par.childrenOf.length - 1), hk2]
    rw [Nat.add_mod_right, Nat.mod_eq_of_lt hixlt, ← hpg, ← hb]

set_option maxRecDepth 1000000 in
/-- Witness for C8: in that session the parent (the root) has two children;
one switch moves to index (1 + 1) % 2 = 0 and two switches return the
session to its original state. -/
theorem c8_switch_branch_witness :
    (Game.switch_branch c8g 1).path =
      c8g.path.dropLast ++ [(1 + 1) % c8g.root.childrenOf.length] ∧
    Nat.iterate (fun x => Game.switch_branch x 1) c8g.root.childrenOf.length c8g = c8g :=
  c8_switch_branch c8g
    (Reachable.play (Game.undo ((Game.play (Game.initGame 3) (mB 0 0) false).1)) (mB 1 1) false c8g
      (Reachable.undo ((Game.play (Game.initGame 3) (mB 0 0) false).1)
        (Reachable.play (Game.initGame 3) (mB 0 0) false
          ((Game.play (Game.initGame 3) (mB 0 0) false).1) (Reachable.init 3) rfl))
      rfl)
    c8g.root 1 rfl rfl (by decide)
